import Mathlib

/-!
Verification development for the quantile-binning driver
(`federatedml/feature/binning/quantile_binning.py`) of the FATE repository.

The driver code (class `QuantileBinning`) is embedded directly from the
source.  The quantile-sketch classes `QuantileSummaries` and
`SparseQuantileSummaries` live in `federatedml/feature/quantile_summaries.py`,
which is not part of the given sources; those two classes are modelled from
the specification (sections 4.1 and 4.2 of the design document), as marked on
each definition.

Python floats are modelled as rational numbers; Python exceptions are
modelled with `Except` over the error type `PyErr`.
-/

/-- Errors a call can raise.  `valueError`, `keyError`, `indexError`,
`zeroDivisionError`, `attributeError` and `typeError` model the Python
built-in exceptions of the same names; `outOfRange` models the
`OutOfRangeError` of the specification (query on an empty summary) and
`stateError` its `StateError` (conflicting `total_count`). -/
inductive PyErr where
  | valueError
  | keyError
  | indexError
  | zeroDivisionError
  | attributeError
  | typeError
  | outOfRange
  | stateError
  deriving DecidableEq, Repr

/-- Modelled from the spec: one retained tuple `(value, g, delta)` of the
Sample Sequence of a Greenwald-Khanna style sketch (section 3 of the design
document). -/
structure Sample where
  value : ℚ
  g : ℕ
  delta : ℕ
  deriving DecidableEq, Repr

/-- Ordering of samples by their value, used for the sorted Sample
Sequence. -/
def svle (a b : Sample) : Prop := a.value ≤ b.value

instance : DecidableRel svle := fun a b => inferInstanceAs (Decidable (a.value ≤ b.value))

/-- Modelled from the spec: the dense sketch `QuantileSummaries`
(`federatedml/feature/quantile_summaries.py` is absent from the sources;
section 4.1 of the design document).  `sampled` is the retained Sample
Sequence sorted ascending by value, `head_list` the unsorted insertion
buffer, `count` the total observation count N. -/
structure QuantileSummaries where
  compress_thres : ℕ
  head_size : ℕ
  error : ℚ
  abnormal_list : List ℚ
  sampled : List Sample
  head_list : List Sample
  count : ℕ
  deriving DecidableEq, Repr

instance : IsTotal Sample svle := ⟨fun a b => le_total a.value b.value⟩

instance : IsTrans Sample svle := ⟨fun _ _ _ h1 h2 => le_trans h1 h2⟩

/-- Sort a sample list ascending by value (a stable sort; the spec only
asks that the buffer be merged into the sequence in value order). -/
def sortSamples (l : List Sample) : List Sample := List.insertionSort svle l

/-- Fuel-driven merge of two value-sorted sample lists; the fuel only
drives the structural recursion and any fuel of at least the combined
length gives the plain merge. -/
def mergeSamplesFuel : ℕ → List Sample → List Sample → List Sample
  | 0, xs, ys => xs ++ ys
  | _ + 1, [], ys => ys
  | _ + 1, x :: xs, [] => x :: xs
  | n + 1, x :: xs, y :: ys =>
    if x.value ≤ y.value then x :: mergeSamplesFuel n xs (y :: ys)
    else y :: mergeSamplesFuel n (x :: xs) ys

/-- Stable merge of two value-sorted sample lists (the "stable merge by
value" of the compress step, spec section 4.1); on ties the sample of the
first (retained) list comes first. -/
def mergeSamplesByValue (xs ys : List Sample) : List Sample :=
  mergeSamplesFuel (xs.length + ys.length) xs ys

/-- Modelled from the spec: greedy coalescing pass of `compress`
(section 4.1): extend the current run while the combined `g` plus the
combined `delta` stays within `bound`, emitting one sample per maximal run
that carries the summed `g`, the max `delta` and the last (largest) value
of the run. -/
def coalesceGo (bound : ℤ) : Sample → List Sample → List Sample
  | cur, [] => [cur]
  | cur, nxt :: rest =>
    if (cur.g + nxt.g + max cur.delta nxt.delta : ℤ) ≤ bound then
      coalesceGo bound ⟨nxt.value, cur.g + nxt.g, max cur.delta nxt.delta⟩ rest
    else cur :: coalesceGo bound nxt rest

/-- Coalesce maximal runs of a sample list (see `coalesceGo`). -/
def coalesceRuns (bound : ℤ) : List Sample → List Sample
  | [] => []
  | s :: rest => coalesceGo bound s rest

namespace QuantileSummaries

/-- Modelled from the spec: the coalescing bound `floor(2 * error * N)` of
the compress step (section 4.1). -/
def mergeBound (q : QuantileSummaries) : ℤ := ⌊2 * q.error * (q.count : ℚ)⌋

/-- Modelled from the spec: `compress` (section 4.1): merge the (sorted)
buffer into the retained Sample Sequence by value, coalesce runs within the
error bound, clear the buffer. -/
def compress (q : QuantileSummaries) : QuantileSummaries :=
  { q with
    sampled := coalesceRuns q.mergeBound (mergeSamplesByValue q.sampled (sortSamples q.head_list))
    head_list := [] }

/-- Compress when the buffer is nonempty (a compress forced before a merge
or a query only has to guarantee an empty buffer, so it is skipped when the
buffer is already empty). -/
def compressIfNeeded (q : QuantileSummaries) : QuantileSummaries :=
  if q.head_list.isEmpty then q else q.compress

/-- Modelled from the spec: `insert` (section 4.1): an abnormal value is
skipped; otherwise `(value, 1, band)` is appended to the buffer where the
band error is `floor(2 * error * N) - 1` (clamped at 0) for a value strictly
inside the current retained range and 0 at the extremes; N is incremented,
and a buffer that reaches `head_size` forces a compress. -/
def insert (q : QuantileSummaries) (v : ℚ) : QuantileSummaries :=
  if v ∈ q.abnormal_list then q
  else
    let band : ℕ :=
      match q.sampled.head?, q.sampled.getLast? with
      | some first, some last =>
        if first.value < v ∧ v < last.value then (⌊2 * q.error * (q.count : ℚ)⌋ - 1).toNat
        else 0
      | _, _ => 0
    let q' := { q with head_list := q.head_list ++ [⟨v, 1, band⟩], count := q.count + 1 }
    if q.head_size ≤ q'.head_list.length then q'.compress else q'

end QuantileSummaries

/-- Modelled from the spec: the scan of `query` (section 4.1): walk the
Sample Sequence accumulating `g` until the running sum plus the current
delta would exceed the threshold `t`, and return the value of the last
sample reached before the excess (resolving the prose to the reading under
which the concrete scenarios of spec section 8 come out: values 1..100
with error 0 and bin_num 4 give split points 25, 50, 75); a scan that
never stops returns the last value. -/
def queryScanGo (t : ℤ) : ℤ → Sample → List Sample → ℚ
  | acc, cur, rest =>
    match rest with
    | [] => cur.value
    | nxt :: rest' =>
      if t < acc + cur.g + nxt.g + nxt.delta then cur.value
      else queryScanGo t (acc + cur.g) nxt rest'

namespace QuantileSummaries

/-- Modelled from the spec: `query` (section 4.1): force a compress,
fail with `OutOfRangeError` on a summary with zero observations, otherwise
compute the target rank `round(p * N)` and scan with threshold
`rank + floor(error * N)`.  The compress mutates the summary, so the
compressed state is returned alongside the value. -/
def queryQ (q : QuantileSummaries) (p : ℚ) : Except PyErr (QuantileSummaries × ℚ) :=
  let q' := q.compressIfNeeded
  if q'.count = 0 then .error .outOfRange
  else
    match q'.sampled with
    | [] => .error .outOfRange
    | first :: rest =>
      .ok (q', queryScanGo (round (p * (q'.count : ℚ)) + ⌊q'.error * (q'.count : ℚ)⌋) 0 first rest)

end QuantileSummaries

/-- Modelled from the spec: the bracketing adjustment of `merge`
(section 4.1): a sample landing strictly between two samples of the other
(sorted) sequence has its delta increased by `(g_lo + delta_lo + g_hi) - 1`
of the bracketing pair; a sample outside the other range is unchanged. -/
def bracketAdjust (other : List Sample) (x : Sample) : Sample :=
  match (other.filter (fun s => s.value < x.value)).getLast?,
        (other.filter (fun s => x.value < s.value)).head? with
  | some lo, some hi => { x with delta := x.delta + (lo.g + lo.delta + hi.g - 1) }
  | _, _ => x

namespace QuantileSummaries

/-- Modelled from the spec: `merge` (section 4.1): compress both sides,
interleave the two Sample Sequences by value after the bracketing delta
adjustment of each sample against the other sequence, and sum N. -/
def merge (q : QuantileSummaries) (other : QuantileSummaries) : QuantileSummaries :=
  let a := q.compressIfNeeded
  let b := other.compressIfNeeded
  { a with
    sampled := mergeSamplesByValue (a.sampled.map (bracketAdjust b.sampled))
                                   (b.sampled.map (bracketAdjust a.sampled))
    count := a.count + b.count }

end QuantileSummaries

/-- Modelled from the spec: `SparseQuantileSummaries`
(`federatedml/feature/quantile_summaries.py` is absent from the sources;
section 4.2 of the design document): a dense summary plus the count of
inserted non-zero values and the externally settable `total_count`.
`set_calls` is a ghost counter of `set_total_count` invocations, recorded
only for the verification; it affects nothing observable. -/
structure SparseQuantileSummaries where
  summaries : QuantileSummaries
  explicit_count : ℕ
  total_count : Option ℕ
  set_calls : ℕ
  deriving DecidableEq, Repr

namespace SparseQuantileSummaries

/-- Modelled from the spec: sparse `insert` (section 4.2): zero is a no-op
(implicit), anything else goes to the inner summary and bumps
`explicit_count`. -/
def insert (s : SparseQuantileSummaries) (v : ℚ) : SparseQuantileSummaries :=
  if v = 0 then s
  else { s with summaries := s.summaries.insert v, explicit_count := s.explicit_count + 1 }

/-- Modelled from the spec: `set_total_count` (section 4.2): settable once;
a second call with a differing value fails with `StateError`. -/
def set_total_count (s : SparseQuantileSummaries) (n : ℕ) :
    Except PyErr SparseQuantileSummaries :=
  match s.total_count with
  | none => .ok { s with total_count := some n, set_calls := s.set_calls + 1 }
  | some m =>
    if m = n then .ok { s with set_calls := s.set_calls + 1 }
    else .error .stateError

/-- Modelled from the spec: sparse `query` (section 4.2), under the
convention that the implicit zeros sort before every inserted value: a
target rank within the zero mass answers 0 directly, otherwise the rank is
shifted past the zero mass and the inner summary is queried at the
corresponding probability.  A query before `total_count` is set fails
(`None` arithmetic in Python); the delegated probability divides by the
inner count, so an empty inner summary fails with a zero division. -/
def queryS (s : SparseQuantileSummaries) (p : ℚ) :
    Except PyErr (SparseQuantileSummaries × ℚ) :=
  match s.total_count with
  | none => .error .typeError
  | some T =>
    let Z : ℤ := (T : ℤ) - (s.explicit_count : ℤ)
    let r : ℤ := round (p * (T : ℚ))
    if r ≤ Z then .ok (s, 0)
    else if s.summaries.count = 0 then .error .zeroDivisionError
    else
      match s.summaries.queryQ (((r - Z : ℤ) : ℚ) / (s.summaries.count : ℚ)) with
      | .error e => .error e
      | .ok (q', v) => .ok ({ s with summaries := q' }, v)

/-- Modelled from the spec: sparse `merge` (section 4.2): merge the inner
summaries, sum the explicit counts; the `total_count` values must be both
unset or agree, otherwise `StateError`. -/
def merge (s : SparseQuantileSummaries) (other : SparseQuantileSummaries) :
    Except PyErr SparseQuantileSummaries :=
  match s.total_count, other.total_count with
  | some a, some b =>
    if a = b then
      .ok { s with summaries := s.summaries.merge other.summaries,
                   explicit_count := s.explicit_count + other.explicit_count }
    else .error .stateError
  | none, none =>
    .ok { s with summaries := s.summaries.merge other.summaries,
                 explicit_count := s.explicit_count + other.explicit_count }
  | _, _ => .error .stateError

end SparseQuantileSummaries

/-- A column summary as stored in the `summary_dict` of the binning driver:
either a dense or a sparse sketch, per the `is_sparse` flag of the build. -/
inductive MSummary where
  | dense (q : QuantileSummaries)
  | sparse (s : SparseQuantileSummaries)
  deriving DecidableEq, Repr

namespace MSummary

/-- Dispatch of `insert` on the stored summary kind. -/
def insert : MSummary → ℚ → MSummary
  | .dense q, v => .dense (q.insert v)
  | .sparse s, v => .sparse (s.insert v)

/-- Dispatch of `query` on the stored summary kind; the possibly compressed
summary is returned with the value (the Python objects mutate in place). -/
def queryVal : MSummary → ℚ → Except PyErr (MSummary × ℚ)
  | .dense q, p =>
    match q.queryQ p with
    | .error e => .error e
    | .ok (q', v) => .ok (.dense q', v)
  | .sparse s, p =>
    match s.queryS p with
    | .error e => .error e
    | .ok (s', v) => .ok (.sparse s', v)

/-- `set_total_count` exists only on the sparse summary; on a dense summary
the Python attribute access fails. -/
def set_total_count : MSummary → ℕ → Except PyErr MSummary
  | .dense _, _ => .error .attributeError
  | .sparse s, n =>
    match s.set_total_count n with
    | .error e => .error e
    | .ok s' => .ok (.sparse s')

/-- `summary1.merge(summary2)` as invoked by `merge_summary_dict`: the
second argument may be `None` (a missing key), on which the Python method
body fails with an attribute access on `None`; merging summaries of
different kinds likewise fails on a missing attribute. -/
def merge : MSummary → Option MSummary → Except PyErr MSummary
  | _, none => .error .attributeError
  | .dense q, some (.dense q2) => .ok (.dense (q.merge q2))
  | .sparse s, some (.sparse s2) =>
    match s.merge s2 with
    | .error e => .error e
    | .ok s' => .ok (.sparse s')
  | _, some _ => .error .attributeError

/-- Ghost observation: how many times `set_total_count` ran on this
summary (0 for a dense summary, which has no such method). -/
def setCalls : MSummary → ℕ
  | .dense _ => 0
  | .sparse s => s.set_calls

/-- The `total_count` field of a sparse summary (`none` on a dense one). -/
def totalCount : MSummary → Option ℕ
  | .dense _ => none
  | .sparse s => s.total_count

end MSummary

/-- Lookup in a Python dict modelled as an association list
(`d[k]` and `d.get(k)` both go through this; the former raises `KeyError`
on `none` at the call site). -/
def dictGet {α : Type} (d : List (String × α)) (k : String) : Option α :=
  match d with
  | [] => none
  | cv :: rest => if cv.1 = k then some cv.2 else dictGet rest k

/-- In-place update of one dict entry (`d[k] = v` for a `k` already
present; Python dict keys are unique, so updating every matching entry of
the association list is the same thing). -/
def updEntry {α : Type} (d : List (String × α)) (k : String) (v : α) : List (String × α) :=
  d.map (fun cv => if cv.1 = k then (cv.1, v) else cv)

/-- One row of a DTable: either an `Instance` object carrying a dense
feature sequence, a bare dense sequence (the two type-name dispatch cases
of `insert_datas`), or a sparse row whose `features.get_all_data()` yields
`(column_index, value)` pairs. -/
inductive Row where
  | inst (features : List ℚ)
  | plain (features : List ℚ)
  | sparseRow (pairs : List (ℕ × ℚ))
  deriving DecidableEq, Repr

/-- A DTable: rows grouped into partitions (the `mapPartitions` unit),
with the sparseness of the data as reported by
`data_overview.is_sparse_data` (that helper is outside the given sources;
it inspects the first row, modelled here as an attribute of the data). -/
structure DataInstances where
  partitions : List (List Row)
  sparse : Bool
  deriving DecidableEq, Repr

/-- `data_instances.count()`: the full row count over all partitions. -/
def DataInstances.count (d : DataInstances) : ℕ :=
  (d.partitions.map List.length).sum

/-- The fields of `FeatureBinningParam` the driver reads
(`params.compress_thres`, `params.head_size`, `params.error`). -/
structure FeatureBinningParam where
  compress_thres : ℕ
  head_size : ℕ
  error : ℚ
  deriving DecidableEq, Repr

/-- The mutable state of a `QuantileBinning` object: the configuration
installed by `__init__` (via the `Binning` base class, outside the given
sources: `bin_num`, `cols_dict` and `header` are supplied out of band, spec
section 6) and the memoized `summary_dict` cache, `None` until the first
build. -/
structure BinState where
  params : FeatureBinningParam
  bin_num : ℤ
  abnormal_list : List ℚ
  cols_dict : List (String × ℕ)
  header : List String
  summary_dict : Option (List (String × MSummary))
  split_points : Option (List (String × List ℚ))
  deriving DecidableEq, Repr

/-- A fresh sketch with the configured parameters and no observations. -/
def freshQ (params : FeatureBinningParam) (abnormal_list : List ℚ) : QuantileSummaries :=
  ⟨params.compress_thres, params.head_size, params.error, abnormal_list, [], [], 0⟩

/-- Dense branch of `insert_datas` for one row: every summary of the dict
receives `features[cols_dict[col_name]]`; a missing column raises
`KeyError`, an index past the row raises `IndexError`. -/
def insertRowDense (features : List ℚ) (cols_dict : List (String × ℕ))
    (d : List (String × MSummary)) : Except PyErr (List (String × MSummary)) :=
  d.mapM (fun cs =>
    match dictGet cols_dict cs.1 with
    | none => .error .keyError
    | some idx =>
      match features.get? idx with
      | none => .error .indexError
      | some v => .ok (cs.1, cs.2.insert v))

/-- Sparse branch of `insert_datas` for one row: only the explicitly
stored `(column_index, value)` pairs are visited; the column name comes
from `header[col_idx]` and the value goes to that column's summary. -/
def insertRowSparse (pairs : List (ℕ × ℚ)) (header : List String)
    (d : List (String × MSummary)) : Except PyErr (List (String × MSummary)) :=
  pairs.foldlM (fun d iv =>
    match header.get? iv.1 with
    | none => .error .indexError
    | some col_name =>
      match dictGet d col_name with
      | none => .error .keyError
      | some s => .ok (updEntry d col_name (s.insert iv.2))) d

/-- `QuantileBinning.insert_datas`: walk the rows of one shard and insert
each relevant value into its column summary; the dense path dispatches on
the row type name, the sparse path walks `features.get_all_data()` (a row
of the wrong shape fails on the missing attribute or subscript). -/
def insert_datas (rows : List Row) (summary_dict : List (String × MSummary))
    (cols_dict : List (String × ℕ)) (header : List String) (is_sparse : Bool) :
    Except PyErr (List (String × MSummary)) :=
  rows.foldlM (fun d row =>
    if is_sparse then
      match row with
      | .sparseRow pairs => insertRowSparse pairs header d
      | _ => .error .attributeError
    else
      match row with
      | .inst f => insertRowDense f cols_dict d
      | .plain f => insertRowDense f cols_dict d
      | .sparseRow _ => .error .typeError) summary_dict

/-- `QuantileBinning.approxiQuantile`: build one fresh summary per column
of `cols_dict` (dense or sparse variant per `is_sparse`), then insert the
shard's data. -/
def approxiQuantile (rows : List Row) (params : FeatureBinningParam)
    (cols_dict : List (String × ℕ)) (abnormal_list : List ℚ) (header : List String)
    (is_sparse : Bool) : Except PyErr (List (String × MSummary)) :=
  let fresh : MSummary :=
    if is_sparse then .sparse ⟨freshQ params abnormal_list, 0, none, 0⟩
    else .dense (freshQ params abnormal_list)
  insert_datas rows (cols_dict.map (fun cs => (cs.1, fresh))) cols_dict header is_sparse

/-- `QuantileBinning.merge_summary_dict`, generic in the summary type and
its merge method: `None` short circuits exactly as in the source, and for
two present dicts every key of the first dict is merged with
`s_dict2.get(col_name)` (which is `none`, not a `KeyError`, on a missing
key). -/
def merge_summary_dict {α : Type} (mergeS : α → Option α → Except PyErr α) :
    Option (List (String × α)) → Option (List (String × α)) →
    Except PyErr (Option (List (String × α)))
  | none, none => .ok none
  | none, some d => .ok (some d)
  | some d, none => .ok (some d)
  | some d1, some d2 => do
    let entries ← d1.mapM (fun cs => do
      let s' ← mergeS cs.2 (dictGet d2 cs.1)
      pure (cs.1, s'))
    pure (some entries)

/-- `summary_dict.reduce(self.merge_summary_dict)`: pairwise reduction of
the per-partition dicts.  Folding from `None` is the same thing because
`None` is the identity of `merge_summary_dict` (its first three
branches). -/
def reduceSummaryDicts (l : List (List (String × MSummary))) :
    Except PyErr (Option (List (String × MSummary))) :=
  l.foldlM (fun acc d => merge_summary_dict MSummary.merge acc (some d)) none

/-- The quantile probabilities of `fit_split_points`:
`percent_value = 1.0 / bin_num` and `i * percent_value` for `i` in
`range(1, bin_num)` (empty whenever `bin_num < 2`). -/
def percentileRate (bin_num : ℤ) : List ℚ :=
  let percent_value : ℚ := 1 / (bin_num : ℚ)
  (List.range' 1 (bin_num - 1).toNat).map (fun i : ℕ => (i : ℚ) * percent_value)

/-- The build block of `fit_split_points` (source lines 75 to 89): map
`approxiQuantile` over the partitions, reduce with `merge_summary_dict`,
and on sparse data assign the full row count to every summary with
`set_total_count`.  An empty table reduces to `None`, on which the
subsequent `.items()` fails. -/
def buildSummaryDict (st : BinState) (data : DataInstances) (is_sparse : Bool) :
    Except PyErr (List (String × MSummary)) := do
  let parts ← data.partitions.mapM
    (fun rows => approxiQuantile rows st.params st.cols_dict st.abnormal_list st.header is_sparse)
  let reduced ← reduceSummaryDicts parts
  match reduced with
  | none => .error .attributeError
  | some sd =>
    if is_sparse then
      sd.mapM (fun cs => do
        let s' ← cs.2.set_total_count data.count
        pure (cs.1, s'))
    else pure sd

/-- The split-point loop body of `fit_split_points` for one column (source
lines 94 to 98): query each probability in order, appending the result
unless it is already in the list (`if s_p not in split_point`); the queried
summary mutates (compresses) along the way. -/
def splitLoop (percs : List ℚ) (s : MSummary) : Except PyErr (MSummary × List ℚ) :=
  percs.foldlM (fun acc p => do
    let (s', v) ← acc.1.queryVal p
    pure (s', if v ∈ acc.2 then acc.2 else acc.2 ++ [v])) (s, ([] : List ℚ))

/-- `QuantileBinning.fit_split_points`.  `percent_value = 1.0 / bin_num`
divides by zero when `bin_num = 0`; the probabilities are
`i / bin_num` for `i` in `range(1, bin_num)`.  When the `summary_dict`
cache is `None` the summaries are built (and, in the source, stored before
the query loop; the loop then mutates the cached objects in place, so on
success the cache holds the post-query states, as returned here), else the
cached dict is reused.  The returned `Bool` is a ghost flag: `true` exactly
when the `mapPartitions`/`reduce` build ran. -/
def fit_split_points (st : BinState) (data : DataInstances) :
    Except PyErr (BinState × List (String × List ℚ) × Bool) :=
  if st.bin_num = 0 then .error .zeroDivisionError
  else
    let percentile_rate : List ℚ := percentileRate st.bin_num
    let is_sparse := data.sparse
    do
      let (sd, built) ←
        match st.summary_dict with
        | none => do
          let d ← buildSummaryDict st data is_sparse
          pure (d, true)
        | some d => pure (d, false)
      let (entries, split_points) ← sd.foldlM
        (fun acc cs => do
          let (s', sp) ← splitLoop percentile_rate cs.2
          pure (acc.1 ++ [(cs.1, s')], acc.2 ++ [(cs.1, sp)]))
        (([] : List (String × MSummary)), ([] : List (String × List ℚ)))
      pure ({ st with summary_dict := some entries, split_points := some split_points },
            split_points, built)

/-- The `query_points` argument of `query_quantile_point`: a single
number, a per-column dict, or anything else (modelled as one opaque case;
the source only distinguishes these three shapes). -/
inductive QueryPoints where
  | num (q : ℚ)
  | dict (m : List (String × ℚ))
  | other
  deriving DecidableEq, Repr

/-- The build-and-store prefix of `query_quantile_point` (source lines 201
to 212): on an empty cache, map and reduce the summaries and store the
result (even when the reduction of an empty table yields `None`); no
`set_total_count` happens here.  Returns the updated state, the dict the
query loop will use, and the ghost build flag. -/
def queryBuildPhase (st : BinState) (data : DataInstances) :
    Except PyErr (BinState × Option (List (String × MSummary)) × Bool) := do
  let is_sparse := data.sparse
  match st.summary_dict with
  | none => do
    let parts ← data.partitions.mapM
      (fun rows => approxiQuantile rows st.params st.cols_dict st.abnormal_list st.header is_sparse)
    let reduced ← reduceSummaryDicts parts
    pure ({ st with summary_dict := reduced }, reduced, true)
  | some d => pure (st, some d, false)

/-- `QuantileBinning.query_quantile_point`: after the build-and-store
prefix, a numeric `query_points` is fanned out to every requested column, a
dict is taken as is, and anything else raises
`ValueError("query_points has wrong type, should be a float, int or dict")`;
the result maps each column of the query dict to `summary_dict[col].query`
at its probability (subscripting a `None` cache fails only once the loop
body runs). -/
def query_quantile_point (st : BinState) (data : DataInstances) (cols : List String)
    (query_points : QueryPoints) :
    Except PyErr (BinState × List (String × ℚ) × Bool) := do
  let (st1, sdOpt, built) ← queryBuildPhase st data
  let query_dict : List (String × ℚ) ←
    match query_points with
    | .num q => pure (cols.map (fun c => (c, q)))
    | .dict m => pure m
    | .other => .error .valueError
  let (sdOpt', result) ← query_dict.foldlM
    (fun acc cq => do
      match acc.1 with
      | none => .error .typeError
      | some sd =>
        match dictGet sd cq.1 with
        | none => .error .keyError
        | some s => do
          let (s', v) ← s.queryVal cq.2
          pure (some (updEntry sd cq.1 s'), acc.2 ++ [(cq.1, v)]))
    (sdOpt, ([] : List (String × ℚ)))
  pure ({ st1 with summary_dict := sdOpt' }, result, built)

/-- Deduplication as the specification words it: walk the queried values
keeping the last appended one, and skip a value exactly when it equals the
immediately preceding appended value. -/
def adjDedupGo (lastAp : ℚ) : List ℚ → List ℚ
  | [] => []
  | v :: vs => if v = lastAp then adjDedupGo lastAp vs else v :: adjDedupGo v vs

/-- Deduplication by comparison with the immediately preceding appended
value (see `adjDedupGo`); the first value is always appended. -/
def adjDedup : List ℚ → List ℚ
  | [] => []
  | v :: vs => v :: adjDedupGo v vs

/-- The membership-based accumulation the source performs
(`if s_p not in split_point: split_point.append(s_p)`), extracted as a pure
list function. -/
def memDedup (l : List ℚ) : List ℚ :=
  l.foldl (fun sp v => if v ∈ sp then sp else sp ++ [v]) ([] : List ℚ)

/-- Heap-level rendering of `merge_summary_dict` for the aliasing
behavior: summaries live in a store and the dicts map column names to
store addresses.  Each iteration reads `s_dict2.get(col_name)` from the
current store, overwrites the first dict's object in place with the merge
result, and files the same address under the same name in `new_dict`. -/
def merge_summary_dict_heap {σ : Type} [Inhabited σ] (mergeS : σ → Option σ → σ)
    (store : List σ) (d1 d2 : List (String × ℕ)) : List σ × List (String × ℕ) :=
  d1.foldl (fun acc cs =>
    let s2 : Option σ := (dictGet d2 cs.1).bind (fun a => acc.1.get? a)
    (acc.1.set cs.2 (mergeS (acc.1.getD cs.2 default) s2), acc.2 ++ [(cs.1, cs.2)]))
    (store, ([] : List (String × ℕ)))

namespace QuantileSummaries

/-- The value `query` returns (see `queryQ`), as a total function: the
scan over the compressed Sample Sequence, defaulting to 0 on an empty
summary (where `queryQ` raises instead). -/
def qvalD (q : QuantileSummaries) (p : ℚ) : ℚ :=
  let q' := q.compressIfNeeded
  match q'.sampled with
  | [] => 0
  | first :: rest =>
    queryScanGo (round (p * (q'.count : ℚ)) + ⌊q'.error * (q'.count : ℚ)⌋) 0 first rest

/-- Shape invariant of a queryable dense summary: the Sample Sequence is
sorted by value, at least one observation was made, and some sample exists
(retained or buffered). -/
def WF (q : QuantileSummaries) : Prop :=
  List.Chain' svle q.sampled ∧ q.count ≠ 0 ∧ (q.sampled ≠ [] ∨ q.head_list ≠ [])

instance (q : QuantileSummaries) : Decidable q.WF :=
  inferInstanceAs (Decidable (_ ∧ _ ∧ _))

/-- All retained and buffered values are nonnegative (the sparse summary
only ever receives such values under the zeros-sort-first convention). -/
def NonNeg (q : QuantileSummaries) : Prop :=
  (∀ s ∈ q.sampled, 0 ≤ s.value) ∧ (∀ s ∈ q.head_list, 0 ≤ s.value)

instance (q : QuantileSummaries) : Decidable q.NonNeg :=
  inferInstanceAs (Decidable (_ ∧ _))

end QuantileSummaries

namespace MSummary

/-- The value `queryVal` returns, as a total function of the summary and
the probability (defaulting to 0 on the failure branches). -/
def qval : MSummary → ℚ → ℚ
  | .dense q, p => q.qvalD p
  | .sparse s, p =>
    match s.total_count with
    | none => 0
    | some T =>
      let Z : ℤ := (T : ℤ) - (s.explicit_count : ℤ)
      let r : ℤ := round (p * (T : ℚ))
      if r ≤ Z then 0
      else s.summaries.qvalD (((r - Z : ℤ) : ℚ) / (s.summaries.count : ℚ))

/-- The summary state after a query: the inner sketch compressed (queries
mutate nothing else). -/
def norm : MSummary → MSummary
  | .dense q => .dense q.compressIfNeeded
  | .sparse s => .sparse { s with summaries := s.summaries.compressIfNeeded }

/-- Queryability of a stored summary: the dense invariant, and for the
sparse variant additionally nonnegative stored values and an assigned
`total_count`. -/
def WF : MSummary → Prop
  | .dense q => q.WF
  | .sparse s => s.summaries.WF ∧ s.summaries.NonNeg ∧ s.total_count ≠ none

instance : (s : MSummary) → Decidable s.WF
  | .dense q => inferInstanceAs (Decidable q.WF)
  | .sparse _ => inferInstanceAs (Decidable (_ ∧ _ ∧ _))

end MSummary

/-- The value the summary stored under column `c` answers for probability
`p` (0 when the column is absent). -/
def qvalAt (sd : List (String × MSummary)) (c : String) (p : ℚ) : ℚ :=
  ((dictGet sd c).map (fun s => s.qval p)).getD 0

/-- A summary object as the query loop may have left it: either untouched
or compressed by a query. -/
def normOf (s₀ s : MSummary) : Prop := s = s₀ ∨ s = s₀.norm

/-- A summary dict as the query loop may have left it: the same columns in
the same order, each summary untouched or compressed. -/
def dictNormOf (sd₀ sd : List (String × MSummary)) : Prop :=
  List.Forall₂ (fun a b => a.1 = b.1 ∧ normOf a.2 b.2) sd₀ sd

/-- Ghost bookkeeping predicate: a summary on which `set_total_count` has
never run (so the implicit-zero mass is unassigned). -/
def MSummary.Unset (s : MSummary) : Prop := s.setCalls = 0 ∧ s.totalCount = none

instance (s : MSummary) : Decidable s.Unset :=
  inferInstanceAs (Decidable (_ ∧ _))

/-- Decidable equality for `Except` results, used to evaluate concrete
runs. -/
instance {ε α : Type} [DecidableEq ε] [DecidableEq α] : DecidableEq (Except ε α) := fun x y =>
  match x, y with
  | .error a, .error b =>
    if h : a = b then .isTrue (by rw [h]) else .isFalse (fun he => h (Except.error.inj he))
  | .ok a, .ok b =>
    if h : a = b then .isTrue (by rw [h]) else .isFalse (fun he => h (Except.ok.inj he))
  | .error _, .ok _ => .isFalse (fun he => Except.noConfusion he)
  | .ok _, .error _ => .isFalse (fun he => Except.noConfusion he)

/-! ### Concrete fixtures used by witnesses and counterexamples -/

/-- A small configuration: thresholds 10, error 0. -/
def fixParams : FeatureBinningParam := ⟨10, 10, 0⟩

/-- A dense sketch holding the values 1, 2, 3, 4. -/
def fixQ4 : QuantileSummaries :=
  ⟨10, 10, 0, [], [⟨1, 1, 0⟩, ⟨2, 1, 0⟩, ⟨3, 1, 0⟩, ⟨4, 1, 0⟩], [], 4⟩

/-- A one-column summary dict. -/
def fixDict : List (String × MSummary) := [("x", .dense fixQ4)]

/-- A binning state with a populated cache and `bin_num = 4`. -/
def fixStCached : BinState := ⟨fixParams, 4, [], [("x", 0)], ["x"], some fixDict, none⟩

/-- A binning state with an empty cache. -/
def fixStEmpty : BinState := ⟨fixParams, 4, [], [("x", 0)], ["x"], none, none⟩

/-- A binning state with a populated cache and `bin_num = 1`. -/
def fixStBin1 : BinState := ⟨fixParams, 1, [], [("x", 0)], ["x"], some fixDict, none⟩

/-- A binning state with `bin_num = 0`. -/
def fixStBin0 : BinState := ⟨fixParams, 0, [], [("x", 0)], ["x"], none, none⟩

/-- Two dense partitions with values 1..4 in one column. -/
def fixData : DataInstances := ⟨[[.plain [1], .plain [2]], [.plain [3], .plain [4]]], false⟩

/-- Two sparse partitions: three rows, explicit values 5 and 7. -/
def fixDataSparse : DataInstances :=
  ⟨[[.sparseRow [(0, 5)], .sparseRow []], [.sparseRow [(0, 7)]]], true⟩

/-- A toy summary merge over naturals, for exercising the generic dict
merge. -/
def fixMergeNat : ℕ → Option ℕ → Except PyErr ℕ := fun a b => .ok (a + b.getD 0)

/-- The same toy merge as a total function, for the heap-level rendering. -/
def fixMergeNatTotal : ℕ → Option ℕ → ℕ := fun a b => a + b.getD 0

/-- The sparse summary the sparse fixture run produces (totals assigned by
the build of `fit_split_points`). -/
def fixSparseResult : MSummary :=
  .sparse ⟨⟨10, 10, 0, [], [⟨5, 1, 0⟩, ⟨7, 1, 0⟩], [], 2⟩, 2, some 3, 1⟩

/-- The state after the sparse fixture run of `fit_split_points`. -/
def fixStSparseDone : BinState :=
  { fixStEmpty with
     summary_dict := some [("x", fixSparseResult)]
     split_points := some [("x", [0, 5])] }

/-- The sparse summary as `query_quantile_point` builds and caches it: the
implicit-zero mass never assigned. -/
def fixSparseUnset : MSummary :=
  .sparse ⟨⟨10, 10, 0, [], [⟨5, 1, 0⟩, ⟨7, 1, 0⟩], [], 2⟩, 2, none, 0⟩

/-! ### Generic lemmas about `Except`-monadic list traversals and dict lookup -/

theorem mapM_ok_forall2 {α β : Type} (f : α → Except PyErr β) :
    ∀ (l : List α) (out : List β), l.mapM f = .ok out →
      List.Forall₂ (fun a b => f a = .ok b) l out := by
  intro l
  induction l with
  | nil =>
    intro out h
    simp only [List.mapM_nil, pure, Except.pure, Except.ok.injEq] at h
    subst h
    exact .nil
  | cons a l ih =>
    intro out h
    rw [List.mapM_cons] at h
    cases hfa : f a with
    | error e => rw [hfa] at h; simp [Bind.bind, Except.bind] at h
    | ok b =>
      rw [hfa] at h
      cases hml : l.mapM f with
      | error e =>
        rw [hml] at h; simp [Bind.bind, Except.bind, pure, Except.pure] at h
      | ok bs =>
        rw [hml] at h
        simp only [Bind.bind, Except.bind, pure, Except.pure, Except.ok.injEq] at h
        subst h
        exact .cons hfa (ih bs hml)

theorem mapM_error_exists {α β : Type} (f : α → Except PyErr β) :
    ∀ (l : List α) (e : PyErr), l.mapM f = .error e → ∃ a ∈ l, f a = .error e := by
  intro l
  induction l with
  | nil =>
    intro e h
    simp only [List.mapM_nil, pure, Except.pure] at h
    exact Except.noConfusion h
  | cons a l ih =>
    intro e h
    rw [List.mapM_cons] at h
    cases hfa : f a with
    | error e' =>
      rw [hfa] at h
      simp only [Bind.bind, Except.bind, Except.error.injEq] at h
      subst h
      exact ⟨a, by simp, hfa⟩
    | ok b =>
      rw [hfa] at h
      cases hml : l.mapM f with
      | error e' =>
        rw [hml] at h
        simp only [Bind.bind, Except.bind, pure, Except.pure, Except.error.injEq] at h
        subst h
        obtain ⟨x, hx, hfx⟩ := ih e' hml
        exact ⟨x, by simp [hx], hfx⟩
      | ok bs =>
        rw [hml] at h
        simp [Bind.bind, Except.bind, pure, Except.pure] at h

theorem forall2_fst_eq {α β : Type} {R : α → β → Prop} :
    ∀ {d : List (String × α)} {e : List (String × β)},
      List.Forall₂ (fun a b => a.1 = b.1 ∧ R a.2 b.2) d e →
      e.map Prod.fst = d.map Prod.fst := by
  intro d e h
  induction h with
  | nil => rfl
  | cons hab _ ih => simp [ih, hab.1.symm]

theorem dictGet_forall2 {α β : Type} {R : α → β → Prop} :
    ∀ {d : List (String × α)} {e : List (String × β)},
      List.Forall₂ (fun a b => a.1 = b.1 ∧ R a.2 b.2) d e →
      ∀ c : String,
        (dictGet d c = none → dictGet e c = none) ∧
        (∀ s, dictGet d c = some s → ∃ t, dictGet e c = some t ∧ R s t) := by
  intro d e h
  induction h with
  | nil => intro c; exact ⟨fun _ => rfl, fun s hs => by simp [dictGet] at hs⟩
  | @cons a b d' e' hab _ ih =>
    intro c
    obtain ⟨hfst, hR⟩ := hab
    constructor
    · intro hn
      simp only [dictGet] at hn ⊢
      rw [hfst] at hn
      by_cases hc : b.1 = c
      · simp [hc] at hn
      · simp only [hc, if_false] at hn ⊢
        exact (ih c).1 hn
    · intro s hs
      simp only [dictGet] at hs ⊢
      rw [hfst] at hs
      by_cases hc : b.1 = c
      · simp only [hc, if_true] at hs ⊢
        obtain rfl := Option.some.inj hs
        exact ⟨b.2, rfl, hR⟩
      · simp only [hc, if_false] at hs ⊢
        exact (ih c).2 s hs

theorem dictGet_forall2_keyed {α β : Type} {F : String → α → β → Prop} :
    ∀ {d : List (String × α)} {e : List (String × β)},
      List.Forall₂ (fun a b => a.1 = b.1 ∧ F a.1 a.2 b.2) d e →
      ∀ c s, dictGet d c = some s → ∃ t, dictGet e c = some t ∧ F c s t := by
  intro d e h
  induction h with
  | nil => intro c s hs; simp [dictGet] at hs
  | @cons a b d' e' hab _ ih =>
    intro c s hs
    obtain ⟨hfst, hF⟩ := hab
    simp only [dictGet] at hs ⊢
    rw [hfst] at hs
    by_cases hc : b.1 = c
    · simp only [hc, if_true, Option.some.injEq] at hs ⊢
      refine ⟨b.2, rfl, ?_⟩
      have : a.1 = c := hfst.trans hc
      rw [← hs, ← this]
      exact hF
    · simp only [hc, if_false] at hs ⊢
      exact ih c s hs

theorem forall2_mem_right {α β : Type} {R : α → β → Prop} :
    ∀ {l : List α} {out : List β}, List.Forall₂ R l out →
      ∀ b ∈ out, ∃ a ∈ l, R a b := by
  intro l out h
  induction h with
  | nil => intro b hb; simp at hb
  | @cons a b l' out' hab _ ih =>
    intro x hx
    rcases List.mem_cons.1 hx with hx | hx
    · exact ⟨a, by simp, hx ▸ hab⟩
    · obtain ⟨a', ha', hr⟩ := ih x hx
      exact ⟨a', by simp [ha'], hr⟩

/-! ### Claim C2 -/

/-- C2: `merge_summary_dict` treats `None` as the identity: merging `None`
with a dict on either side returns that dict unchanged, and merging `None`
with `None` returns `None`. -/
theorem merge_summary_dict_none_identity {α : Type}
    (mergeS : α → Option α → Except PyErr α) (d : List (String × α)) :
    merge_summary_dict mergeS none (some d) = .ok (some d) ∧
    merge_summary_dict mergeS (some d) none = .ok (some d) ∧
    merge_summary_dict mergeS none none = .ok none :=
  ⟨rfl, rfl, rfl⟩

/-! ### Claim C8 -/

/-- C8: for two present dicts the key set of the merge result is exactly
the key set of the first dict (a column only in the second dict is
dropped); every key of the first dict is merged against
`s_dict2.get(col_name)` — which is `none`, not a `KeyError`, when the
column is missing from the second dict — and any failure of the call comes
out of such a summary-level merge, never out of the lookup. -/
theorem merge_summary_dict_keys_first {α : Type}
    (mergeS : α → Option α → Except PyErr α) (d1 d2 : List (String × α)) :
    (∀ r, merge_summary_dict mergeS (some d1) (some d2) = .ok (some r) →
      r.map Prod.fst = d1.map Prod.fst ∧
      ∀ c s1, dictGet d1 c = some s1 →
        ∃ s', mergeS s1 (dictGet d2 c) = .ok s' ∧ dictGet r c = some s') ∧
    (∀ e, merge_summary_dict mergeS (some d1) (some d2) = .error e →
      ∃ cs ∈ d1, mergeS cs.2 (dictGet d2 cs.1) = .error e) := by
  constructor
  · intro r h
    have hm : d1.mapM (fun cs => do
        let s' ← mergeS cs.2 (dictGet d2 cs.1)
        pure (cs.1, s')) = .ok r := by
      simp only [merge_summary_dict] at h
      cases hmm : d1.mapM (fun cs => do
          let s' ← mergeS cs.2 (dictGet d2 cs.1)
          pure (cs.1, s')) with
      | error e => rw [hmm] at h; simp [Bind.bind, Except.bind] at h
      | ok r' =>
        rw [hmm] at h
        simp only [Bind.bind, Except.bind, pure, Except.pure, Except.ok.injEq,
          Option.some.injEq] at h
        rw [h]
    have hf := mapM_ok_forall2 _ d1 r hm
    have hf' : List.Forall₂
        (fun (a : String × α) (b : String × α) =>
          a.1 = b.1 ∧ mergeS a.2 (dictGet d2 a.1) = .ok b.2) d1 r := by
      refine hf.imp ?_
      intro a b hab
      cases hma : mergeS a.2 (dictGet d2 a.1) with
      | error e => rw [hma] at hab; simp [Bind.bind, Except.bind] at hab
      | ok s' =>
        rw [hma] at hab
        simp only [Bind.bind, Except.bind, pure, Except.pure, Except.ok.injEq] at hab
        subst hab
        exact ⟨rfl, rfl⟩
    constructor
    · exact forall2_fst_eq (R := fun a b => True)
        (hf'.imp (fun a b hab => ⟨hab.1, trivial⟩))
    · intro c s1 hs1
      obtain ⟨t, ht, hm'⟩ := dictGet_forall2_keyed
        (F := fun c s t => mergeS s (dictGet d2 c) = .ok t) hf' c s1 hs1
      exact ⟨t, hm', ht⟩
  · intro e h
    simp only [merge_summary_dict] at h
    cases hmm : d1.mapM (fun cs => do
        let s' ← mergeS cs.2 (dictGet d2 cs.1)
        pure (cs.1, s')) with
    | error e' =>
      rw [hmm] at h
      simp only [Bind.bind, Except.bind, Except.error.injEq] at h
      subst h
      obtain ⟨a, ha, hfa⟩ := mapM_error_exists _ d1 e' hmm
      refine ⟨a, ha, ?_⟩
      cases hma : mergeS a.2 (dictGet d2 a.1) with
      | error e'' =>
        rw [hma] at hfa
        simp only [Bind.bind, Except.bind, Except.error.injEq] at hfa
        rw [← hfa]
      | ok s' =>
        rw [hma] at hfa
        simp [Bind.bind, Except.bind, pure, Except.pure] at hfa
    | ok r' =>
      rw [hmm] at h
      simp [Bind.bind, Except.bind, pure, Except.pure] at h

/-! ### Claim C9 -/

theorem dictGet_mem {α : Type} :
    ∀ {d : List (String × α)} {c : String} {v : α}, dictGet d c = some v → (c, v) ∈ d := by
  intro d
  induction d with
  | nil => intro c v h; simp [dictGet] at h
  | cons a d' ih =>
    intro c v h
    simp only [dictGet] at h
    by_cases hc : a.1 = c
    · simp only [hc, if_true, Option.some.injEq] at h
      subst h
      subst hc
      simp
    · simp only [hc, if_false] at h
      exact List.mem_cons_of_mem _ (ih h)

theorem heap_fold_spec {σ : Type} [Inhabited σ] (mergeS : σ → Option σ → σ)
    (d2 : List (String × ℕ)) :
    ∀ (d1 : List (String × ℕ)) (store : List σ) (nd0 : List (String × ℕ)),
      (d1.map Prod.snd).Nodup →
      (∀ cs ∈ d1, cs.2 < store.length) →
      (∀ cs ∈ d2, cs.2 ∉ d1.map Prod.snd) →
      (d1.foldl (fun acc cs =>
        (acc.1.set cs.2 (mergeS (acc.1.getD cs.2 default)
            ((dictGet d2 cs.1).bind (fun a => acc.1.get? a))),
         acc.2 ++ [(cs.1, cs.2)])) (store, nd0)).2 = nd0 ++ d1 ∧
      (∀ cs ∈ d1, (d1.foldl (fun acc cs =>
        (acc.1.set cs.2 (mergeS (acc.1.getD cs.2 default)
            ((dictGet d2 cs.1).bind (fun a => acc.1.get? a))),
         acc.2 ++ [(cs.1, cs.2)])) (store, nd0)).1.get? cs.2 =
        some (mergeS (store.getD cs.2 default) ((dictGet d2 cs.1).bind store.get?))) ∧
      (∀ a, a ∉ d1.map Prod.snd → (d1.foldl (fun acc cs =>
        (acc.1.set cs.2 (mergeS (acc.1.getD cs.2 default)
            ((dictGet d2 cs.1).bind (fun a => acc.1.get? a))),
         acc.2 ++ [(cs.1, cs.2)])) (store, nd0)).1.get? a = store.get? a) ∧
      (d1.foldl (fun acc cs =>
        (acc.1.set cs.2 (mergeS (acc.1.getD cs.2 default)
            ((dictGet d2 cs.1).bind (fun a => acc.1.get? a))),
         acc.2 ++ [(cs.1, cs.2)])) (store, nd0)).1.length = store.length := by
  intro d1
  induction d1 with
  | nil =>
    intro store nd0 _ _ _
    refine ⟨by simp, ?_, ?_, rfl⟩
    · intro cs hcs; simp at hcs
    · intro a _; rfl
  | cons cs d1' ih =>
    intro store nd0 hnd hlt hdisj
    have hndhead : cs.2 ∉ d1'.map Prod.snd := by
      simp only [List.map_cons, List.nodup_cons] at hnd
      exact hnd.1
    have hndtail : (d1'.map Prod.snd).Nodup := by
      simp only [List.map_cons, List.nodup_cons] at hnd
      exact hnd.2
    have hcslt : cs.2 < store.length := hlt cs (by simp)
    set store1 : List σ := store.set cs.2 (mergeS (store.getD cs.2 default)
      ((dictGet d2 cs.1).bind (fun a => store.get? a))) with hstore1
    have hlen1 : store1.length = store.length := List.length_set store cs.2 _
    have hlt1 : ∀ c ∈ d1', c.2 < store1.length := by
      intro c hc; rw [hlen1]; exact hlt c (by simp [hc])
    have hdisj1 : ∀ c ∈ d2, c.2 ∉ d1'.map Prod.snd := by
      intro c hc
      have := hdisj c hc
      simp only [List.map_cons, List.mem_cons] at this
      intro hmem
      exact this (Or.inr hmem)
    obtain ⟨ih2, ihentry, ihframe, ihlen⟩ := ih store1 (nd0 ++ [(cs.1, cs.2)]) hndtail hlt1 hdisj1
    have hfold : ∀ (p : List σ × List (String × ℕ)),
        ((cs :: d1').foldl (fun acc c =>
          (acc.1.set c.2 (mergeS (acc.1.getD c.2 default)
              ((dictGet d2 c.1).bind (fun a => acc.1.get? a))),
           acc.2 ++ [(c.1, c.2)])) p) =
        (d1'.foldl (fun acc c =>
          (acc.1.set c.2 (mergeS (acc.1.getD c.2 default)
              ((dictGet d2 c.1).bind (fun a => acc.1.get? a))),
           acc.2 ++ [(c.1, c.2)])) (p.1.set cs.2 (mergeS (p.1.getD cs.2 default)
              ((dictGet d2 cs.1).bind (fun a => p.1.get? a))), p.2 ++ [(cs.1, cs.2)])) := by
      intro p; rfl
    rw [hfold (store, nd0)]
    refine ⟨?_, ?_, ?_, ?_⟩
    · rw [ih2]; simp
    · intro c hc
      rcases List.mem_cons.1 hc with hc | hc
      · subst hc
        have := ihframe c.2 hndhead
        rw [this]
        exact List.get?_set_eq_of_lt _ hcslt
      · have hne : cs.2 ≠ c.2 := by
          intro he
          exact hndhead (he ▸ List.mem_map_of_mem Prod.snd hc)
        have hgd : store1.getD c.2 default = store.getD c.2 default := by
          show (store1.get? c.2).getD default = (store.get? c.2).getD default
          rw [List.get?_set_ne _ _ hne]
        have hbind : (dictGet d2 c.1).bind store1.get? = (dictGet d2 c.1).bind store.get? := by
          cases hdg : dictGet d2 c.1 with
          | none => rfl
          | some a =>
            have hmem := dictGet_mem hdg
            have hna := hdisj (c.1, a) hmem
            simp only [List.map_cons, List.mem_cons] at hna
            have hacs : a ≠ cs.2 := fun he => hna (Or.inl he)
            show store1.get? a = store.get? a
            exact List.get?_set_ne _ _ (fun he => hacs he.symm)
        have := ihentry c hc
        rw [this, hgd, hbind]
    · intro a ha
      simp only [List.map_cons, List.mem_cons] at ha
      push_neg at ha
      rw [ihframe a ha.2]
      exact List.get?_set_ne _ _ ha.1.symm
    · rw [ihlen, hlen1]

/-- C9: the heap-level rendering of `merge_summary_dict` over two present
dicts: the result dict holds exactly the first dict's column-to-object
bindings (each result entry is the same object as the corresponding entry
of `s_dict1`), each of those objects is overwritten in place with
`summary1.merge(s_dict2.get(col_name))` — so the first map's summaries do
not survive the reduce unchanged and the second map's summaries are only
read — and every object not bound by the first dict is untouched. -/
theorem merge_summary_dict_heap_in_place {σ : Type} [Inhabited σ]
    (mergeS : σ → Option σ → σ) (store : List σ) (d1 d2 : List (String × ℕ))
    (hnd : (d1.map Prod.snd).Nodup)
    (hlt : ∀ cs ∈ d1, cs.2 < store.length)
    (hdisj : ∀ cs ∈ d2, cs.2 ∉ d1.map Prod.snd) :
    (merge_summary_dict_heap mergeS store d1 d2).2 = d1 ∧
    (∀ cs ∈ d1, (merge_summary_dict_heap mergeS store d1 d2).1.get? cs.2 =
      some (mergeS (store.getD cs.2 default) ((dictGet d2 cs.1).bind store.get?))) ∧
    (∀ a, a ∉ d1.map Prod.snd →
      (merge_summary_dict_heap mergeS store d1 d2).1.get? a = store.get? a) := by
  obtain ⟨h2, hentry, hframe, _⟩ := heap_fold_spec mergeS d2 d1 store [] hnd hlt hdisj
  exact ⟨h2, hentry, hframe⟩

/-! ### Characterizations of the driver paths -/

theorem except_bind_ok {γ δ : Type} (x : Except PyErr γ) (f : γ → Except PyErr δ) (y : δ)
    (h : x.bind f = .ok y) : ∃ g, x = .ok g ∧ f g = .ok y := by
  cases x with
  | error e => simp [Except.bind] at h
  | ok g => exact ⟨g, rfl, h⟩

theorem fit_split_points_cached_eq (st : BinState) (data : DataInstances)
    (d : List (String × MSummary)) (hbn : ¬ st.bin_num = 0) (hd : st.summary_dict = some d) :
    fit_split_points st data =
      (d.foldlM (fun (acc : List (String × MSummary) × List (String × List ℚ))
            (cs : String × MSummary) => do
          let (s', sp) ← splitLoop (percentileRate st.bin_num) cs.2
          pure (acc.1 ++ [(cs.1, s')], acc.2 ++ [(cs.1, sp)]))
        (([] : List (String × MSummary)), ([] : List (String × List ℚ)))).bind
        (fun pr => .ok ({ st with summary_dict := some pr.1, split_points := some pr.2 },
          pr.2, false)) := by
  rw [fit_split_points, if_neg hbn, hd]
  rfl

theorem fit_split_points_build_eq (st : BinState) (data : DataInstances)
    (hbn : ¬ st.bin_num = 0) (hd : st.summary_dict = none) :
    fit_split_points st data =
      (buildSummaryDict st data data.sparse).bind (fun sd =>
        (sd.foldlM (fun (acc : List (String × MSummary) × List (String × List ℚ))
              (cs : String × MSummary) => do
            let (s', sp) ← splitLoop (percentileRate st.bin_num) cs.2
            pure (acc.1 ++ [(cs.1, s')], acc.2 ++ [(cs.1, sp)]))
          (([] : List (String × MSummary)), ([] : List (String × List ℚ)))).bind
          (fun pr => .ok ({ st with summary_dict := some pr.1, split_points := some pr.2 },
            pr.2, true))) := by
  rw [fit_split_points, if_neg hbn, hd]
  cases hb : buildSummaryDict st data data.sparse with
  | error e => simp [Bind.bind, Except.bind, hb]
  | ok sd => simp [Bind.bind, Except.bind, hb, pure, Except.pure]

theorem queryBuildPhase_cached_eq (st : BinState) (data : DataInstances)
    (d : List (String × MSummary)) (hd : st.summary_dict = some d) :
    queryBuildPhase st data = .ok (st, some d, false) := by
  rw [queryBuildPhase, hd]
  rfl

theorem queryBuildPhase_build_eq (st : BinState) (data : DataInstances)
    (hd : st.summary_dict = none) :
    queryBuildPhase st data =
      (data.partitions.mapM (fun rows =>
        approxiQuantile rows st.params st.cols_dict st.abnormal_list st.header data.sparse)).bind
        (fun parts => (reduceSummaryDicts parts).bind
          (fun reduced => .ok ({ st with summary_dict := reduced }, reduced, true))) := by
  rw [queryBuildPhase, hd]
  cases hp : data.partitions.mapM (fun rows =>
      approxiQuantile rows st.params st.cols_dict st.abnormal_list st.header data.sparse) with
  | error e => simp [Bind.bind, Except.bind, hp]
  | ok parts =>
    simp only [Bind.bind, Except.bind, hp]
    cases hr : reduceSummaryDicts parts with
    | error e => simp [Except.bind, hr]
    | ok reduced => simp [Except.bind, hr, pure, Except.pure]

theorem query_quantile_point_eq (st : BinState) (data : DataInstances) (cols : List String)
    (qp : QueryPoints) :
    query_quantile_point st data cols qp =
      (queryBuildPhase st data).bind (fun bp =>
        ((match qp with
          | .num q => Except.ok (cols.map (fun c => (c, q)))
          | .dict m => Except.ok m
          | .other => Except.error PyErr.valueError) :
            Except PyErr (List (String × ℚ))).bind (fun query_dict =>
          (query_dict.foldlM (fun (acc : Option (List (String × MSummary)) × List (String × ℚ))
              (cq : String × ℚ) =>
            (do
              match acc.1 with
              | none => Except.error PyErr.typeError
              | some sd =>
                match dictGet sd cq.1 with
                | none => Except.error PyErr.keyError
                | some s => do
                  let (s', v) ← s.queryVal cq.2
                  pure (some (updEntry sd cq.1 s'), acc.2 ++ [(cq.1, v)]) :
              Except PyErr (Option (List (String × MSummary)) × List (String × ℚ))))
            (bp.2.1, ([] : List (String × ℚ)))).bind
            (fun pr => .ok ({ bp.1 with summary_dict := pr.1 }, pr.2, bp.2.2)))) := by
  rw [query_quantile_point]
  cases hb : queryBuildPhase st data with
  | error e => simp [Bind.bind, Except.bind, hb]
  | ok bp =>
    simp only [Bind.bind, Except.bind, hb]
    cases qp with
    | num q => rfl
    | dict m => rfl
    | other => rfl

/-! ### Claims C5 and C7 -/

theorem splitLoop_nil (s : MSummary) : splitLoop [] s = .ok (s, []) := rfl

theorem except_ok_bind {γ δ : Type} (x : γ) (g : γ → Except PyErr δ) :
    ((Except.ok x : Except PyErr γ) >>= g) = g x := rfl

theorem fitLoop_nil_percs :
    ∀ (sd : List (String × MSummary)) (e0 : List (String × MSummary))
      (s0 : List (String × List ℚ)),
      sd.foldlM (fun (acc : List (String × MSummary) × List (String × List ℚ))
          (cs : String × MSummary) => do
        let (s', sp) ← splitLoop [] cs.2
        pure (acc.1 ++ [(cs.1, s')], acc.2 ++ [(cs.1, sp)])) (e0, s0) =
      .ok (e0 ++ sd, s0 ++ sd.map (fun cs => (cs.1, ([] : List ℚ)))) := by
  intro sd
  induction sd with
  | nil => intro e0 s0; simp [List.foldlM_nil, pure, Except.pure]
  | cons cs sd ih =>
    intro e0 s0
    rw [List.foldlM_cons]
    have hstep : (do
        let (s', sp) ← splitLoop [] cs.2
        pure ((e0, s0).1 ++ [(cs.1, s')], (e0, s0).2 ++ [(cs.1, sp)]) :
          Except PyErr (List (String × MSummary) × List (String × List ℚ))) =
        .ok (e0 ++ [(cs.1, cs.2)], s0 ++ [(cs.1, [])]) := rfl
    rw [hstep]
    simp only [except_ok_bind]
    rw [ih (e0 ++ [(cs.1, cs.2)]) (s0 ++ [(cs.1, [])])]
    simp

/-- C5: the `summary_dict` cache is respected: with a populated cache both
`fit_split_points` and `query_quantile_point` run no `mapPartitions`
and`reduce` build (ghost flag false); with an empty cache a successful call
runs the build exactly there (ghost flag true) and `fit_split_points`
stores the result in the cache. -/
theorem summary_cache_reuse (st : BinState) (data : DataInstances) :
    (∀ d, st.summary_dict = some d →
      (∀ st' sp b, fit_split_points st data = .ok (st', sp, b) → b = false) ∧
      (∀ cols qp st' r b, query_quantile_point st data cols qp = .ok (st', r, b) → b = false)) ∧
    (st.summary_dict = none →
      (∀ st' sp b, fit_split_points st data = .ok (st', sp, b) →
        b = true ∧ st'.summary_dict ≠ none) ∧
      (∀ cols qp st' r b, query_quantile_point st data cols qp = .ok (st', r, b) →
        b = true)) := by
  constructor
  · intro d hd
    constructor
    · intro st' sp b h
      by_cases hbn : st.bin_num = 0
      · rw [fit_split_points, if_pos hbn] at h
        exact absurd h (by simp)
      · rw [fit_split_points_cached_eq st data d hbn hd] at h
        obtain ⟨pr, _, hres⟩ := except_bind_ok _ _ _ h
        injection hres with h'
        exact (congrArg (fun t => t.2.2) h').symm
    · intro cols qp st' r b h
      rw [query_quantile_point_eq, queryBuildPhase_cached_eq st data d hd] at h
      simp only [Except.bind] at h
      obtain ⟨qd, _, h2⟩ := except_bind_ok _ _ _ h
      obtain ⟨pr, _, hres⟩ := except_bind_ok _ _ _ h2
      injection hres with h'
      exact (congrArg (fun t => t.2.2) h').symm
  · intro hd
    constructor
    · intro st' sp b h
      by_cases hbn : st.bin_num = 0
      · rw [fit_split_points, if_pos hbn] at h
        exact absurd h (by simp)
      · rw [fit_split_points_build_eq st data hbn hd] at h
        obtain ⟨sd, _, h2⟩ := except_bind_ok _ _ _ h
        obtain ⟨pr, _, hres⟩ := except_bind_ok _ _ _ h2
        injection hres with h'
        simp only [Prod.mk.injEq] at h'
        obtain ⟨h1, _, h3⟩ := h'
        refine ⟨h3.symm, ?_⟩
        rw [← h1]
        simp
    · intro cols qp st' r b h
      rw [query_quantile_point_eq, queryBuildPhase_build_eq st data hd] at h
      obtain ⟨bp, hbp, h2⟩ := except_bind_ok _ _ _ h
      obtain ⟨parts, _, h3⟩ := except_bind_ok _ _ _ hbp
      obtain ⟨reduced, _, h4⟩ := except_bind_ok _ _ _ h3
      obtain ⟨qd, _, h5⟩ := except_bind_ok _ _ _ h2
      obtain ⟨pr, _, hres⟩ := except_bind_ok _ _ _ h5
      injection hres with h'
      injection h4 with h4'
      have hb : b = bp.2.2 := (congrArg (fun t => t.2.2) h').symm
      rw [hb, ← h4']

/-! ### Ghost bookkeeping through the build and query paths (claims C6, C10) -/

theorem unset_dense (q : QuantileSummaries) : (MSummary.dense q).Unset :=
  ⟨rfl, rfl⟩

theorem unset_insert {s : MSummary} (v : ℚ) (h : s.Unset) : (s.insert v).Unset := by
  cases s with
  | dense q => exact unset_dense _
  | sparse sp =>
    simp only [MSummary.insert, SparseQuantileSummaries.insert]
    by_cases hz : v = 0
    · simpa [hz] using h
    · simpa [hz, MSummary.Unset, MSummary.setCalls, MSummary.totalCount] using h

theorem unset_merge {s1 s2 r : MSummary} (h1 : s1.Unset) (h2 : s2.Unset)
    (hm : s1.merge (some s2) = .ok r) : r.Unset := by
  cases s1 with
  | dense q1 =>
    cases s2 with
    | dense q2 =>
      simp only [MSummary.merge, Except.ok.injEq] at hm
      rw [← hm]
      exact unset_dense _
    | sparse sp2 => simp [MSummary.merge] at hm
  | sparse sp1 =>
    cases s2 with
    | dense q2 => simp [MSummary.merge] at hm
    | sparse sp2 =>
      obtain ⟨hc1, ht1⟩ := h1
      obtain ⟨hc2, ht2⟩ := h2
      simp only [MSummary.totalCount] at ht1 ht2
      simp only [MSummary.merge, SparseQuantileSummaries.merge, ht1, ht2] at hm
      simp only [Except.ok.injEq] at hm
      rw [← hm]
      exact ⟨hc1, rfl⟩

theorem unset_updEntry {d : List (String × MSummary)} {v : MSummary} (k : String)
    (hd : ∀ e ∈ d, e.2.Unset) (hv : v.Unset) : ∀ e ∈ updEntry d k v, e.2.Unset := by
  intro e he
  simp only [updEntry, List.mem_map] at he
  obtain ⟨e0, he0, hcase⟩ := he
  by_cases hk : e0.1 = k
  · rw [if_pos hk] at hcase
    rw [← hcase]
    exact hv
  · rw [if_neg hk] at hcase
    rw [← hcase]
    exact hd e0 he0

theorem unset_insertRowDense {features : List ℚ} {cols_dict : List (String × ℕ)}
    {d d' : List (String × MSummary)} (hd : ∀ e ∈ d, e.2.Unset)
    (h : insertRowDense features cols_dict d = .ok d') : ∀ e ∈ d', e.2.Unset := by
  intro e he
  have hf := mapM_ok_forall2 _ d d' h
  obtain ⟨a, ha, hfa⟩ := forall2_mem_right hf e he
  cases hidx : dictGet cols_dict a.1 with
  | none =>
    simp only [hidx] at hfa
    exact absurd hfa (by simp)
  | some idx =>
    simp only [hidx] at hfa
    cases hv : features.get? idx with
    | none =>
      simp only [hv] at hfa
      exact absurd hfa (by simp)
    | some v =>
      simp only [hv, Except.ok.injEq] at hfa
      rw [← hfa]
      exact unset_insert v (hd a ha)

theorem unset_insertRowSparse {header : List String} :
    ∀ (pairs : List (ℕ × ℚ)) (d d' : List (String × MSummary)),
      (∀ e ∈ d, e.2.Unset) →
      insertRowSparse pairs header d = .ok d' → ∀ e ∈ d', e.2.Unset := by
  intro pairs
  induction pairs with
  | nil =>
    intro d d' hd h
    simp only [insertRowSparse, List.foldlM_nil, pure, Except.pure, Except.ok.injEq] at h
    rw [← h]
    exact hd
  | cons iv pairs ih =>
    intro d d' hd h
    rw [insertRowSparse, List.foldlM_cons] at h
    cases hidx : header.get? iv.1 with
    | none =>
      simp only [hidx] at h
      exact absurd h (by simp [Bind.bind, Except.bind])
    | some col =>
      simp only [hidx] at h
      cases hg : dictGet d col with
      | none =>
        simp only [hg] at h
        exact absurd h (by simp [Bind.bind, Except.bind])
      | some s =>
        simp only [hg, except_ok_bind] at h
        exact ih _ d' (unset_updEntry col hd (unset_insert iv.2 (hd _ (dictGet_mem hg)))) h

theorem unset_insert_datas {cols_dict : List (String × ℕ)} {header : List String}
    {is_sparse : Bool} :
    ∀ (rows : List Row) (d d' : List (String × MSummary)),
      (∀ e ∈ d, e.2.Unset) →
      insert_datas rows d cols_dict header is_sparse = .ok d' → ∀ e ∈ d', e.2.Unset := by
  intro rows
  induction rows with
  | nil =>
    intro d d' hd h
    simp only [insert_datas, List.foldlM_nil, pure, Except.pure, Except.ok.injEq] at h
    rw [← h]
    exact hd
  | cons row rows ih =>
    intro d d' hd h
    rw [insert_datas, List.foldlM_cons] at h
    cases hsp : is_sparse with
    | true =>
      rw [hsp] at h
      cases row with
      | sparseRow pairs =>
        simp only [if_true] at h
        cases hstep : insertRowSparse pairs header d with
        | error e => rw [hstep] at h; exact absurd h (by simp [Bind.bind, Except.bind])
        | ok d1 =>
          rw [hstep] at h
          simp only [except_ok_bind] at h
          refine ih d1 d' (unset_insertRowSparse pairs d d1 hd hstep) ?_
          rw [insert_datas, hsp]
          simpa using h
      | inst f => simp [Bind.bind, Except.bind] at h
      | plain f => simp [Bind.bind, Except.bind] at h
    | false =>
      rw [hsp] at h
      cases row with
      | sparseRow pairs => simp [Bind.bind, Except.bind] at h
      | inst f =>
        simp only [Bool.false_eq_true, if_false] at h
        cases hstep : insertRowDense f cols_dict d with
        | error e => rw [hstep] at h; exact absurd h (by simp [Bind.bind, Except.bind])
        | ok d1 =>
          rw [hstep] at h
          simp only [except_ok_bind] at h
          refine ih d1 d' (unset_insertRowDense hd hstep) ?_
          rw [insert_datas, hsp]
          simpa using h
      | plain f =>
        simp only [Bool.false_eq_true, if_false] at h
        cases hstep : insertRowDense f cols_dict d with
        | error e => rw [hstep] at h; exact absurd h (by simp [Bind.bind, Except.bind])
        | ok d1 =>
          rw [hstep] at h
          simp only [except_ok_bind] at h
          refine ih d1 d' (unset_insertRowDense hd hstep) ?_
          rw [insert_datas, hsp]
          simpa using h

theorem unset_approxiQuantile {rows : List Row} {params : FeatureBinningParam}
    {cols_dict : List (String × ℕ)} {abnormal_list : List ℚ} {header : List String}
    {is_sparse : Bool} {d : List (String × MSummary)}
    (h : approxiQuantile rows params cols_dict abnormal_list header is_sparse = .ok d) :
    ∀ e ∈ d, e.2.Unset := by
  rw [approxiQuantile] at h
  refine unset_insert_datas rows _ d ?_ h
  intro e he
  simp only [List.mem_map] at he
  obtain ⟨cs, _, hcs⟩ := he
  rw [← hcs]
  cases is_sparse with
  | true => exact ⟨rfl, rfl⟩
  | false => exact ⟨rfl, rfl⟩

theorem unset_merge_summary_dict {d1 d2 r : List (String × MSummary)}
    (h1 : ∀ e ∈ d1, e.2.Unset) (h2 : ∀ e ∈ d2, e.2.Unset)
    (h : merge_summary_dict MSummary.merge (some d1) (some d2) = .ok (some r)) :
    ∀ e ∈ r, e.2.Unset := by
  intro e he
  obtain ⟨hkeys, hmerge⟩ := (merge_summary_dict_keys_first MSummary.merge d1 d2).1 r h
  have hm : d1.mapM (fun cs => do
      let s' ← MSummary.merge cs.2 (dictGet d2 cs.1)
      pure (cs.1, s')) = .ok r := by
    simp only [merge_summary_dict] at h
    cases hmm : d1.mapM (fun cs => do
        let s' ← MSummary.merge cs.2 (dictGet d2 cs.1)
        pure (cs.1, s')) with
    | error e' => rw [hmm] at h; simp [Bind.bind, Except.bind] at h
    | ok r' =>
      rw [hmm] at h
      simp only [Bind.bind, Except.bind, pure, Except.pure, Except.ok.injEq,
        Option.some.injEq] at h
      rw [h]
  obtain ⟨a, ha, hfa⟩ := forall2_mem_right (mapM_ok_forall2 _ d1 r hm) e he
  cases hma : MSummary.merge a.2 (dictGet d2 a.1) with
  | error e' => rw [hma] at hfa; simp [Bind.bind, Except.bind] at hfa
  | ok s' =>
    rw [hma] at hfa
    simp only [Bind.bind, Except.bind, pure, Except.pure, Except.ok.injEq] at hfa
    rw [← hfa]
    cases hget : dictGet d2 a.1 with
    | none => rw [hget] at hma; simp [MSummary.merge] at hma
    | some s2 =>
      rw [hget] at hma
      exact unset_merge (h1 a ha) (h2 _ (dictGet_mem hget)) hma

theorem unset_reduceSummaryDicts :
    ∀ (l : List (List (String × MSummary))) (acc : Option (List (String × MSummary)))
      (res : Option (List (String × MSummary))),
      (∀ d ∈ l, ∀ e ∈ d, e.2.Unset) →
      (∀ d, acc = some d → ∀ e ∈ d, e.2.Unset) →
      l.foldlM (fun a d => merge_summary_dict MSummary.merge a (some d)) acc = .ok res →
      ∀ d, res = some d → ∀ e ∈ d, e.2.Unset := by
  intro l
  induction l with
  | nil =>
    intro acc res _ hacc h
    simp only [List.foldlM_nil, pure, Except.pure, Except.ok.injEq] at h
    rw [← h]
    exact hacc
  | cons d0 l ih =>
    intro acc res hl hacc h
    rw [List.foldlM_cons] at h
    cases hstep : merge_summary_dict MSummary.merge acc (some d0) with
    | error e => rw [hstep] at h; exact absurd h (by simp [Bind.bind, Except.bind])
    | ok acc1 =>
      rw [hstep] at h
      simp only [except_ok_bind] at h
      refine ih acc1 res (fun d hd => hl d (by simp [hd])) ?_ h
      intro d1 hd1
      cases acc with
      | none =>
        simp only [merge_summary_dict, Except.ok.injEq] at hstep
        rw [← hstep] at hd1
        have hdd := Option.some.inj hd1
        rw [← hdd]
        exact hl d0 (by simp)
      | some da =>
        rw [hd1] at hstep
        exact unset_merge_summary_dict (hacc da rfl) (hl d0 (by simp)) hstep

theorem set_total_count_of_unset {s r : MSummary} {n : ℕ} (h : s.Unset)
    (hm : s.set_total_count n = .ok r) : r.setCalls = 1 ∧ r.totalCount = some n := by
  cases s with
  | dense q => simp [MSummary.set_total_count] at hm
  | sparse sp =>
    obtain ⟨hc, ht⟩ := h
    simp only [MSummary.totalCount] at ht
    simp only [MSummary.setCalls] at hc
    simp only [MSummary.set_total_count, SparseQuantileSummaries.set_total_count, ht,
      Except.ok.injEq] at hm
    rw [← hm]
    exact ⟨by simp [MSummary.setCalls, hc], rfl⟩

theorem buildSummaryDict_sparse_sets_total {st : BinState} {data : DataInstances}
    {sd : List (String × MSummary)} (h : buildSummaryDict st data true = .ok sd) :
    ∀ cs ∈ sd, cs.2.setCalls = 1 ∧ cs.2.totalCount = some data.count := by
  rw [buildSummaryDict] at h
  simp only [Bind.bind] at h
  obtain ⟨parts, hparts, h2⟩ := except_bind_ok _ _ _ h
  obtain ⟨reduced, hred, h3⟩ := except_bind_ok _ _ _ h2
  have hparts_unset : ∀ d ∈ parts, ∀ e ∈ d, e.2.Unset := by
    intro d hd
    obtain ⟨rows, _, hrow⟩ := forall2_mem_right (mapM_ok_forall2 _ _ _ hparts) d hd
    exact unset_approxiQuantile hrow
  cases reduced with
  | none => exact absurd h3 (by simp)
  | some sd0 =>
    have hsd0 : ∀ e ∈ sd0, e.2.Unset :=
      unset_reduceSummaryDicts parts none (some sd0) hparts_unset (by simp) hred sd0 rfl
    simp only [if_true] at h3
    intro cs hcs
    obtain ⟨a, ha, hfa⟩ := forall2_mem_right (mapM_ok_forall2 _ _ _ h3) cs hcs
    cases hset : a.2.set_total_count data.count with
    | error e => rw [hset] at hfa; simp [Bind.bind, Except.bind] at hfa
    | ok s' =>
      rw [hset] at hfa
      simp only [Bind.bind, Except.bind, pure, Except.pure, Except.ok.injEq] at hfa
      rw [← hfa]
      exact set_total_count_of_unset (hsd0 a ha) hset

theorem queryVal_preserves_ghost {s s' : MSummary} {p v : ℚ}
    (h : s.queryVal p = .ok (s', v)) :
    s'.setCalls = s.setCalls ∧ s'.totalCount = s.totalCount := by
  cases s with
  | dense q =>
    simp only [MSummary.queryVal] at h
    cases hq : q.queryQ p with
    | error e => rw [hq] at h; exact absurd h (by simp)
    | ok pr =>
      rw [hq] at h
      simp only [Except.ok.injEq, Prod.mk.injEq] at h
      rw [← h.1]
      exact ⟨rfl, rfl⟩
  | sparse sp =>
    simp only [MSummary.queryVal] at h
    cases hq : sp.queryS p with
    | error e => rw [hq] at h; exact absurd h (by simp)
    | ok pr =>
      rw [hq] at h
      simp only [Except.ok.injEq, Prod.mk.injEq] at h
      rw [← h.1]
      simp only [SparseQuantileSummaries.queryS] at hq
      cases ht : sp.total_count with
      | none => rw [ht] at hq; exact absurd hq (by simp)
      | some T =>
        simp only [ht] at hq
        by_cases hr : round (p * (T : ℚ)) ≤ (T : ℤ) - (sp.explicit_count : ℤ)
        · rw [if_pos hr] at hq
          simp only [Except.ok.injEq] at hq
          rw [← hq]
          exact ⟨rfl, rfl⟩
        · rw [if_neg hr] at hq
          by_cases hc : sp.summaries.count = 0
          · rw [if_pos hc] at hq; exact absurd hq (by simp)
          · rw [if_neg hc] at hq
            cases hqq : sp.summaries.queryQ
                (((round (p * (T : ℚ)) - ((T : ℤ) - (sp.explicit_count : ℤ)) : ℤ) : ℚ) /
                  (sp.summaries.count : ℚ)) with
            | error e => rw [hqq] at hq; exact absurd hq (by simp)
            | ok qpr =>
              rw [hqq] at hq
              simp only [Except.ok.injEq] at hq
              rw [← hq]
              exact ⟨rfl, by simp [MSummary.totalCount, ht]⟩

theorem splitLoop_preserves_ghost :
    ∀ (percs : List ℚ) (acc : MSummary × List ℚ) (res : MSummary × List ℚ),
      (percs.foldlM (fun acc p => do
        let (s', v) ← acc.1.queryVal p
        pure (s', if v ∈ acc.2 then acc.2 else acc.2 ++ [v])) acc) = .ok res →
      res.1.setCalls = acc.1.setCalls ∧ res.1.totalCount = acc.1.totalCount := by
  intro percs
  induction percs with
  | nil =>
    intro acc res h
    simp only [List.foldlM_nil, pure, Except.pure, Except.ok.injEq] at h
    rw [← h]
    exact ⟨rfl, rfl⟩
  | cons p percs ih =>
    intro acc res h
    rw [List.foldlM_cons] at h
    cases hq : acc.1.queryVal p with
    | error e => rw [hq] at h; simp [Bind.bind, Except.bind] at h
    | ok pr =>
      rw [hq] at h
      simp only [Bind.bind, Except.bind] at h
      have hgq := @queryVal_preserves_ghost acc.1 pr.1 p pr.2 (by rw [hq])
      have := ih (pr.1, if pr.2 ∈ acc.2 then acc.2 else acc.2 ++ [pr.2]) res h
      exact ⟨this.1.trans hgq.1, this.2.trans hgq.2⟩

theorem splitLoop_preserves_ghost' {percs : List ℚ} {s s' : MSummary} {sp : List ℚ}
    (h : splitLoop percs s = .ok (s', sp)) :
    s'.setCalls = s.setCalls ∧ s'.totalCount = s.totalCount :=
  splitLoop_preserves_ghost percs (s, []) (s', sp) h

theorem fitLoop_entries_pres (P : MSummary → Prop) (percs : List ℚ)
    (hstab : ∀ s s' sp, splitLoop percs s = .ok (s', sp) → P s → P s') :
    ∀ (sd : List (String × MSummary))
      (acc : List (String × MSummary) × List (String × List ℚ))
      (res : List (String × MSummary) × List (String × List ℚ)),
      (∀ cs ∈ sd, P cs.2) → (∀ e ∈ acc.1, P e.2) →
      sd.foldlM (fun (acc : List (String × MSummary) × List (String × List ℚ))
          (cs : String × MSummary) => do
        let (s', sp) ← splitLoop percs cs.2
        pure (acc.1 ++ [(cs.1, s')], acc.2 ++ [(cs.1, sp)])) acc = .ok res →
      ∀ e ∈ res.1, P e.2 := by
  intro sd
  induction sd with
  | nil =>
    intro acc res _ hacc h
    simp only [List.foldlM_nil, pure, Except.pure, Except.ok.injEq] at h
    rw [← h]
    exact hacc
  | cons cs sd ih =>
    intro acc res hsd hacc h
    rw [List.foldlM_cons] at h
    cases hsl : splitLoop percs cs.2 with
    | error e => rw [hsl] at h; simp [Bind.bind, Except.bind] at h
    | ok pr =>
      rw [hsl] at h
      simp only [Bind.bind, Except.bind] at h
      refine ih _ res (fun c hc => hsd c (by simp [hc])) ?_ h
      intro e he
      rcases List.mem_append.1 he with he | he
      · exact hacc e he
      · simp only [List.mem_singleton] at he
        rw [he]
        exact hstab cs.2 pr.1 pr.2 hsl (hsd cs (by simp))

/-- C6: on sparse data with an empty cache, a successful `fit_split_points`
goes through `buildSummaryDict`, where after the reduce every summary of
the merged map receives `set_total_count` exactly once (ghost call count 1)
with the full-dataset row count, before any split point is queried; the
query loop leaves both facts intact, so they also hold of the cached
map. -/
theorem fit_sparse_sets_total_once (st : BinState) (data : DataInstances)
    (st' : BinState) (sp : List (String × List ℚ)) (b : Bool)
    (hcache : st.summary_dict = none) (hsp : data.sparse = true)
    (h : fit_split_points st data = .ok (st', sp, b)) :
    ∃ sd, buildSummaryDict st data true = .ok sd ∧
      (∀ cs ∈ sd, cs.2.setCalls = 1 ∧ cs.2.totalCount = some data.count) ∧
      ∃ entries, st'.summary_dict = some entries ∧
        ∀ cs ∈ entries, cs.2.setCalls = 1 ∧ cs.2.totalCount = some data.count := by
  by_cases hbn : st.bin_num = 0
  · rw [fit_split_points, if_pos hbn] at h
    exact absurd h (by simp)
  · rw [fit_split_points_build_eq st data hbn hcache, hsp] at h
    obtain ⟨sd, hbuild, h2⟩ := except_bind_ok _ _ _ h
    obtain ⟨pr, hpr, hres⟩ := except_bind_ok _ _ _ h2
    have hsd := buildSummaryDict_sparse_sets_total hbuild
    refine ⟨sd, hbuild, hsd, pr.1, ?_, ?_⟩
    · injection hres with h'
      simp only [Prod.mk.injEq] at h'
      rw [← h'.1]
    · refine fitLoop_entries_pres
        (fun s => s.setCalls = 1 ∧ s.totalCount = some data.count) _ ?_ sd _ pr
        hsd (by intro e he; simp at he) hpr
      intro s s' sp' hsl hP
      obtain ⟨h1, h2'⟩ := splitLoop_preserves_ghost' hsl
      exact ⟨h1.trans hP.1, h2'.trans hP.2⟩

theorem queryLoop_unset :
    ∀ (qd : List (String × ℚ))
      (acc : Option (List (String × MSummary)) × List (String × ℚ))
      (res : Option (List (String × MSummary)) × List (String × ℚ)),
      (∀ sd, acc.1 = some sd → ∀ e ∈ sd, e.2.Unset) →
      qd.foldlM (fun (acc : Option (List (String × MSummary)) × List (String × ℚ))
          (cq : String × ℚ) =>
        (do
          match acc.1 with
          | none => Except.error PyErr.typeError
          | some sd =>
            match dictGet sd cq.1 with
            | none => Except.error PyErr.keyError
            | some s => do
              let (s', v) ← s.queryVal cq.2
              pure (some (updEntry sd cq.1 s'), acc.2 ++ [(cq.1, v)]) :
          Except PyErr (Option (List (String × MSummary)) × List (String × ℚ)))) acc =
        .ok res →
      ∀ sd, res.1 = some sd → ∀ e ∈ sd, e.2.Unset := by
  intro qd
  induction qd with
  | nil =>
    intro acc res hacc h
    simp only [List.foldlM_nil, pure, Except.pure, Except.ok.injEq] at h
    rw [← h]
    exact hacc
  | cons cq qd ih =>
    intro acc res hacc h
    rw [List.foldlM_cons] at h
    cases hacc1 : acc.1 with
    | none =>
      simp only [hacc1] at h
      exact absurd h (by simp [Bind.bind, Except.bind])
    | some sd0 =>
      simp only [hacc1] at h
      cases hg : dictGet sd0 cq.1 with
      | none =>
        simp only [hg] at h
        exact absurd h (by simp [Bind.bind, Except.bind])
      | some s =>
        simp only [hg] at h
        cases hqv : s.queryVal cq.2 with
        | error e =>
          rw [hqv] at h
          exact absurd h (by simp [Bind.bind, Except.bind])
        | ok pr =>
          rw [hqv] at h
          simp only [Bind.bind, Except.bind, pure, Except.pure] at h
          refine ih _ res ?_ h
          intro sd1 hsd1
          obtain rfl := Option.some.inj hsd1
          have hs : s.Unset := hacc sd0 hacc1 _ (dictGet_mem hg)
          have hgq := @queryVal_preserves_ghost s pr.1 cq.2 pr.2 (by rw [hqv])
          exact unset_updEntry cq.1 (hacc sd0 hacc1) ⟨hgq.1.trans hs.1, hgq.2.trans hs.2⟩

/-- C10: `query_quantile_point` never calls `set_total_count`: the
build-and-store prefix caches summaries whose ghost call count is 0 and
whose `total_count` is unassigned, and the query loop keeps them so — even
on sparse data built freshly within the call. -/
theorem query_never_sets_total (st : BinState) (data : DataInstances)
    (hcache : st.summary_dict = none) :
    (∀ st1 sdOpt b, queryBuildPhase st data = .ok (st1, sdOpt, b) →
      st1.summary_dict = sdOpt ∧
      ∀ sd, sdOpt = some sd → ∀ cs ∈ sd, cs.2.Unset) ∧
    (∀ cols qp st' r b, query_quantile_point st data cols qp = .ok (st', r, b) →
      ∀ entries, st'.summary_dict = some entries → ∀ cs ∈ entries, cs.2.Unset) := by
  have hbuild : ∀ st1 sdOpt b, queryBuildPhase st data = .ok (st1, sdOpt, b) →
      st1.summary_dict = sdOpt ∧
      ∀ sd, sdOpt = some sd → ∀ cs ∈ sd, cs.2.Unset := by
    intro st1 sdOpt b h
    rw [queryBuildPhase_build_eq st data hcache] at h
    obtain ⟨parts, hp, h2⟩ := except_bind_ok _ _ _ h
    obtain ⟨reduced, hr, h3⟩ := except_bind_ok _ _ _ h2
    injection h3 with h3'
    simp only [Prod.mk.injEq] at h3'
    obtain ⟨hst1, hsd, _⟩ := h3'
    have hred_unset : ∀ sd, reduced = some sd → ∀ cs ∈ sd, cs.2.Unset := by
      intro sd hsd'
      refine unset_reduceSummaryDicts parts none (some sd) ?_ (by simp) ?_ sd rfl
      · intro d hd
        obtain ⟨rows, _, hrow⟩ := forall2_mem_right (mapM_ok_forall2 _ _ _ hp) d hd
        exact unset_approxiQuantile hrow
      · rw [← hsd']
        simpa only [reduceSummaryDicts] using hr
    constructor
    · rw [← hst1, ← hsd]
    · rw [← hsd]
      exact hred_unset
  refine ⟨hbuild, ?_⟩
  intro cols qp st' r b h
  rw [query_quantile_point_eq] at h
  obtain ⟨bp, hbp, h2⟩ := except_bind_ok _ _ _ h
  obtain ⟨qd, hqd, h3⟩ := except_bind_ok _ _ _ h2
  obtain ⟨pr, hpr, hres⟩ := except_bind_ok _ _ _ h3
  injection hres with h'
  simp only [Prod.mk.injEq] at h'
  obtain ⟨hst', _, _⟩ := h'
  intro entries hentries
  have hbp' := hbuild bp.1 bp.2.1 bp.2.2 (by rw [hbp])
  refine queryLoop_unset qd (bp.2.1, []) pr (fun sd hsd => hbp'.2 sd hsd) hpr entries ?_
  rw [← hentries, ← hst']

/-! ### Sortedness of the sketch transformations (claims C3, C4) -/

theorem chain'_sortSamples (l : List Sample) : List.Chain' svle (sortSamples l) :=
  (List.sorted_insertionSort svle l).chain'

theorem mem_sortSamples {a : Sample} {l : List Sample} : a ∈ sortSamples l ↔ a ∈ l :=
  (List.perm_insertionSort svle l).mem_iff

theorem sortSamples_eq_nil {l : List Sample} (h : sortSamples l = []) : l = [] := by
  have hlen := (List.perm_insertionSort svle l).length_eq
  rw [show List.insertionSort svle l = sortSamples l from rfl, h] at hlen
  exact List.length_eq_zero.1 hlen.symm

theorem mem_mergeSamplesFuel {a : Sample} :
    ∀ (fuel : ℕ) (xs ys : List Sample),
      a ∈ mergeSamplesFuel fuel xs ys ↔ a ∈ xs ∨ a ∈ ys := by
  intro fuel
  induction fuel with
  | zero => intro xs ys; simp [mergeSamplesFuel]
  | succ n ih =>
    intro xs ys
    cases xs with
    | nil => simp [mergeSamplesFuel]
    | cons x xs =>
      cases ys with
      | nil => simp [mergeSamplesFuel]
      | cons y ys =>
        rw [mergeSamplesFuel]
        by_cases hle : x.value ≤ y.value
        · rw [if_pos hle]
          simp only [List.mem_cons, ih]
          tauto
        · rw [if_neg hle]
          simp only [List.mem_cons, ih]
          tauto

theorem mergeSamplesFuel_ne_nil :
    ∀ (fuel : ℕ) (xs ys : List Sample), xs ≠ [] ∨ ys ≠ [] →
      mergeSamplesFuel fuel xs ys ≠ [] := by
  intro fuel
  induction fuel with
  | zero =>
    intro xs ys h
    rcases h with h | h
    · simp [mergeSamplesFuel, h]
    · simp [mergeSamplesFuel, h]
  | succ n ih =>
    intro xs ys h
    cases xs with
    | nil =>
      cases ys with
      | nil => simp at h
      | cons y ys => simp [mergeSamplesFuel]
    | cons x xs =>
      cases ys with
      | nil => simp [mergeSamplesFuel]
      | cons y ys =>
        rw [mergeSamplesFuel]
        by_cases hle : x.value ≤ y.value
        · rw [if_pos hle]; simp
        · rw [if_neg hle]; simp

theorem mergeSamplesFuel_head :
    ∀ (fuel : ℕ) (xs ys : List Sample) (z : Sample),
      (mergeSamplesFuel fuel xs ys).head? = some z →
      xs.head? = some z ∨ ys.head? = some z := by
  intro fuel
  induction fuel with
  | zero =>
    intro xs ys z h
    cases xs with
    | nil => right; simpa [mergeSamplesFuel] using h
    | cons x xs => left; simpa [mergeSamplesFuel] using h
  | succ n ih =>
    intro xs ys z h
    cases xs with
    | nil => right; simpa [mergeSamplesFuel] using h
    | cons x xs =>
      cases ys with
      | nil => left; simpa [mergeSamplesFuel] using h
      | cons y ys =>
        rw [mergeSamplesFuel] at h
        by_cases hle : x.value ≤ y.value
        · rw [if_pos hle] at h
          left
          simpa using h
        · rw [if_neg hle] at h
          right
          simpa using h

theorem chain'_mergeSamplesFuel :
    ∀ (fuel : ℕ) (xs ys : List Sample), xs.length + ys.length ≤ fuel →
      List.Chain' svle xs → List.Chain' svle ys →
      List.Chain' svle (mergeSamplesFuel fuel xs ys) := by
  intro fuel
  induction fuel with
  | zero =>
    intro xs ys hlen hx hy
    have hxs : xs = [] := by
      cases xs with
      | nil => rfl
      | cons a l => simp at hlen
    have hys : ys = [] := by
      cases ys with
      | nil => rfl
      | cons a l => rw [hxs] at hlen; simp at hlen
    rw [hxs, hys]
    simp [mergeSamplesFuel]
  | succ n ih =>
    intro xs ys hlen hx hy
    cases xs with
    | nil => simpa [mergeSamplesFuel] using hy
    | cons x xs =>
      cases ys with
      | nil => simpa [mergeSamplesFuel] using hx
      | cons y ys =>
        rw [mergeSamplesFuel]
        by_cases hle : x.value ≤ y.value
        · rw [if_pos hle]
          rw [List.chain'_cons'] at hx ⊢
          refine ⟨?_, ih xs (y :: ys) (by simp at hlen ⊢; omega) hx.2 hy⟩
          intro z hz
          rcases mergeSamplesFuel_head n xs (y :: ys) z
              (by simpa using hz) with hh | hh
          · exact hx.1 z (by simpa using hh)
          · simp only [List.head?_cons, Option.some.injEq] at hh
            rw [hh] at hle
            exact hle
        · rw [if_neg hle]
          rw [List.chain'_cons'] at hy ⊢
          refine ⟨?_, ih (x :: xs) ys (by simp at hlen ⊢; omega) hx hy.2⟩
          intro z hz
          rcases mergeSamplesFuel_head n (x :: xs) ys z
              (by simpa using hz) with hh | hh
          · simp only [List.head?_cons, Option.some.injEq] at hh
            rw [← hh]
            exact le_of_not_le hle
          · exact hy.1 z (by simpa using hh)

theorem chain'_mergeSamplesByValue {xs ys : List Sample}
    (hx : List.Chain' svle xs) (hy : List.Chain' svle ys) :
    List.Chain' svle (mergeSamplesByValue xs ys) :=
  chain'_mergeSamplesFuel _ xs ys le_rfl hx hy

theorem mergeSamplesByValue_ne_nil {xs ys : List Sample} (h : xs ≠ [] ∨ ys ≠ []) :
    mergeSamplesByValue xs ys ≠ [] :=
  mergeSamplesFuel_ne_nil _ xs ys h

theorem mem_mergeSamplesByValue {a : Sample} {xs ys : List Sample} :
    a ∈ mergeSamplesByValue xs ys ↔ a ∈ xs ∨ a ∈ ys :=
  mem_mergeSamplesFuel _ xs ys

theorem coalesceGo_ne_nil (bound : ℤ) :
    ∀ (rest : List Sample) (cur : Sample), coalesceGo bound cur rest ≠ [] := by
  intro rest
  induction rest with
  | nil => intro cur; simp [coalesceGo]
  | cons nxt rest ih =>
    intro cur
    rw [coalesceGo]
    by_cases hc : (cur.g + nxt.g + max cur.delta nxt.delta : ℤ) ≤ bound
    · rw [if_pos hc]; exact ih _
    · rw [if_neg hc]; simp

theorem coalesceGo_head_chain (bound : ℤ) :
    ∀ (rest : List Sample) (cur : Sample), List.Chain' svle (cur :: rest) →
      List.Chain' svle (coalesceGo bound cur rest) ∧
      (∀ z, (coalesceGo bound cur rest).head? = some z → cur.value ≤ z.value) := by
  intro rest
  induction rest with
  | nil =>
    intro cur _
    refine ⟨by simp [coalesceGo], ?_⟩
    intro z hz
    simp only [coalesceGo, List.head?_cons, Option.some.injEq] at hz
    rw [← hz]
  | cons nxt rest ih =>
    intro cur hchain
    rw [List.chain'_cons] at hchain
    rw [coalesceGo]
    by_cases hc : (cur.g + nxt.g + max cur.delta nxt.delta : ℤ) ≤ bound
    · rw [if_pos hc]
      have hch : List.Chain' svle
          ((⟨nxt.value, cur.g + nxt.g, max cur.delta nxt.delta⟩ : Sample) :: rest) := by
        rw [List.chain'_cons'] at hchain ⊢
        exact ⟨hchain.2.1, hchain.2.2⟩
      obtain ⟨hc1, hc2⟩ := ih _ hch
      refine ⟨hc1, ?_⟩
      intro z hz
      exact le_trans hchain.1 (hc2 z hz)
    · rw [if_neg hc]
      obtain ⟨hc1, hc2⟩ := ih nxt hchain.2
      constructor
      · rw [List.chain'_cons']
        refine ⟨?_, hc1⟩
        intro z hz
        exact le_trans hchain.1 (hc2 z hz)
      · intro z hz
        simp only [List.head?_cons, Option.some.injEq] at hz
        rw [← hz]

theorem coalesceGo_value_mem (bound : ℤ) :
    ∀ (rest : List Sample) (cur : Sample) (s : Sample), s ∈ coalesceGo bound cur rest →
      s.value = cur.value ∨ ∃ y ∈ rest, s.value = y.value := by
  intro rest
  induction rest with
  | nil =>
    intro cur s hs
    simp only [coalesceGo, List.mem_singleton] at hs
    left
    rw [hs]
  | cons nxt rest ih =>
    intro cur s hs
    rw [coalesceGo] at hs
    by_cases hc : (cur.g + nxt.g + max cur.delta nxt.delta : ℤ) ≤ bound
    · rw [if_pos hc] at hs
      rcases ih _ s hs with h | ⟨y, hy, hv⟩
      · right; exact ⟨nxt, by simp, h⟩
      · right; exact ⟨y, by simp [hy], hv⟩
    · rw [if_neg hc] at hs
      rcases List.mem_cons.1 hs with h | h
      · left; rw [h]
      · rcases ih nxt s h with h' | ⟨y, hy, hv⟩
        · right; exact ⟨nxt, by simp, h'⟩
        · right; exact ⟨y, by simp [hy], hv⟩

theorem chain'_coalesceRuns (bound : ℤ) {l : List Sample} (h : List.Chain' svle l) :
    List.Chain' svle (coalesceRuns bound l) := by
  cases l with
  | nil => simp [coalesceRuns]
  | cons s rest => exact (coalesceGo_head_chain bound rest s h).1

theorem coalesceRuns_ne_nil (bound : ℤ) {l : List Sample} (h : l ≠ []) :
    coalesceRuns bound l ≠ [] := by
  cases l with
  | nil => exact absurd rfl h
  | cons s rest => exact coalesceGo_ne_nil bound rest s

theorem coalesceRuns_value_mem (bound : ℤ) {l : List Sample} {s : Sample}
    (h : s ∈ coalesceRuns bound l) : ∃ y ∈ l, s.value = y.value := by
  cases l with
  | nil => simp [coalesceRuns] at h
  | cons c rest =>
    rcases coalesceGo_value_mem bound rest c s h with h' | ⟨y, hy, hv⟩
    · exact ⟨c, by simp, h'⟩
    · exact ⟨y, by simp [hy], hv⟩

/-! ### Compression and scan properties -/

theorem compress_count (q : QuantileSummaries) : q.compress.count = q.count := rfl

theorem compress_head_list (q : QuantileSummaries) : q.compress.head_list = [] := rfl

theorem compress_config (q : QuantileSummaries) :
    q.compress.error = q.error ∧ q.compress.head_size = q.head_size ∧
    q.compress.compress_thres = q.compress_thres ∧
    q.compress.abnormal_list = q.abnormal_list :=
  ⟨rfl, rfl, rfl, rfl⟩

theorem chain'_compress {q : QuantileSummaries} (h : List.Chain' svle q.sampled) :
    List.Chain' svle q.compress.sampled :=
  chain'_coalesceRuns _ (chain'_mergeSamplesByValue h (chain'_sortSamples _))

theorem compress_sampled_ne_nil {q : QuantileSummaries}
    (h : q.sampled ≠ [] ∨ q.head_list ≠ []) : q.compress.sampled ≠ [] := by
  refine coalesceRuns_ne_nil _ (mergeSamplesByValue_ne_nil ?_)
  rcases h with h | h
  · exact Or.inl h
  · refine Or.inr ?_
    intro hs
    exact h (sortSamples_eq_nil hs)

theorem compress_sampled_nonneg {q : QuantileSummaries} (h : q.NonNeg) :
    ∀ s ∈ q.compress.sampled, 0 ≤ s.value := by
  intro s hs
  obtain ⟨y, hy, hv⟩ := coalesceRuns_value_mem _ hs
  rw [hv]
  rcases mem_mergeSamplesByValue.1 hy with hy' | hy'
  · exact h.1 y hy'
  · exact h.2 y (mem_sortSamples.1 hy')

theorem compressIfNeeded_head_list (q : QuantileSummaries) :
    q.compressIfNeeded.head_list = [] := by
  rw [QuantileSummaries.compressIfNeeded]
  by_cases h : q.head_list.isEmpty
  · rw [if_pos h]
    exact List.isEmpty_iff.1 h
  · rw [if_neg h]
    rfl

theorem compressIfNeeded_idem (q : QuantileSummaries) :
    q.compressIfNeeded.compressIfNeeded = q.compressIfNeeded := by
  conv =>
    lhs
    rw [QuantileSummaries.compressIfNeeded]
  rw [if_pos (List.isEmpty_iff.2 (compressIfNeeded_head_list q))]

theorem compressIfNeeded_count (q : QuantileSummaries) :
    q.compressIfNeeded.count = q.count := by
  rw [QuantileSummaries.compressIfNeeded]
  by_cases h : q.head_list.isEmpty
  · rw [if_pos h]
  · rw [if_neg h]
    rfl

theorem compressIfNeeded_error (q : QuantileSummaries) :
    q.compressIfNeeded.error = q.error := by
  rw [QuantileSummaries.compressIfNeeded]
  by_cases h : q.head_list.isEmpty
  · rw [if_pos h]
  · rw [if_neg h]
    rfl

theorem compressIfNeeded_props {q : QuantileSummaries} (h : q.WF) :
    List.Chain' svle q.compressIfNeeded.sampled ∧ q.compressIfNeeded.sampled ≠ [] := by
  obtain ⟨hch, _, hne⟩ := h
  rw [QuantileSummaries.compressIfNeeded]
  by_cases hb : q.head_list.isEmpty
  · rw [if_pos hb]
    refine ⟨hch, ?_⟩
    rcases hne with hne | hne
    · exact hne
    · exact absurd (List.isEmpty_iff.1 hb) hne
  · rw [if_neg hb]
    exact ⟨chain'_compress hch, compress_sampled_ne_nil hne⟩

theorem compressIfNeeded_nonneg {q : QuantileSummaries} (h : q.NonNeg) :
    ∀ s ∈ q.compressIfNeeded.sampled, 0 ≤ s.value := by
  rw [QuantileSummaries.compressIfNeeded]
  by_cases hb : q.head_list.isEmpty
  · rw [if_pos hb]
    exact h.1
  · rw [if_neg hb]
    exact compress_sampled_nonneg h

theorem compressIfNeeded_WF {q : QuantileSummaries} (h : q.WF) :
    q.compressIfNeeded.WF := by
  obtain ⟨hch, hc, _⟩ := compressIfNeeded_props h |>.1, h.2.1, trivial
  exact ⟨(compressIfNeeded_props h).1, by rw [compressIfNeeded_count]; exact h.2.1,
    Or.inl (compressIfNeeded_props h).2⟩

theorem queryScanGo_mem :
    ∀ (rest : List Sample) (cur : Sample) (acc t : ℤ),
      ∃ s ∈ cur :: rest, queryScanGo t acc cur rest = s.value := by
  intro rest
  induction rest with
  | nil => intro cur acc t; exact ⟨cur, by simp, rfl⟩
  | cons nxt rest ih =>
    intro cur acc t
    rw [queryScanGo]
    by_cases hlt : t < acc + cur.g + nxt.g + nxt.delta
    · rw [if_pos hlt]
      exact ⟨cur, by simp, rfl⟩
    · rw [if_neg hlt]
      obtain ⟨s, hs, hv⟩ := ih nxt (acc + cur.g) t
      exact ⟨s, List.mem_cons_of_mem cur hs, hv⟩

theorem queryScanGo_lb :
    ∀ (rest : List Sample) (cur : Sample) (acc t : ℤ), List.Chain' svle (cur :: rest) →
      cur.value ≤ queryScanGo t acc cur rest := by
  intro rest
  induction rest with
  | nil => intro cur acc t _; rw [queryScanGo]
  | cons nxt rest ih =>
    intro cur acc t hch
    rw [List.chain'_cons] at hch
    rw [queryScanGo]
    by_cases hlt : t < acc + cur.g + nxt.g + nxt.delta
    · rw [if_pos hlt]
    · rw [if_neg hlt]
      exact le_trans hch.1 (ih nxt (acc + cur.g) t hch.2)

theorem queryScanGo_mono :
    ∀ (rest : List Sample) (cur : Sample) (acc : ℤ) (t1 t2 : ℤ), t1 ≤ t2 →
      List.Chain' svle (cur :: rest) →
      queryScanGo t1 acc cur rest ≤ queryScanGo t2 acc cur rest := by
  intro rest
  induction rest with
  | nil => intro cur acc t1 t2 _ _; rw [queryScanGo]; exact le_rfl
  | cons nxt rest ih =>
    intro cur acc t1 t2 ht hch
    have hch' := (List.chain'_cons.1 hch)
    rw [queryScanGo]
    conv =>
      rhs
      rw [queryScanGo]
    by_cases h2 : t2 < acc + cur.g + nxt.g + nxt.delta
    · have h1 : t1 < acc + cur.g + nxt.g + nxt.delta := lt_of_le_of_lt ht h2
      rw [if_pos h1, if_pos h2]
    · rw [if_neg h2]
      by_cases h1 : t1 < acc + cur.g + nxt.g + nxt.delta
      · rw [if_pos h1]
        exact le_trans hch'.1 (queryScanGo_lb rest nxt (acc + cur.g) t2 hch'.2)
      · rw [if_neg h1]
        exact ih nxt (acc + cur.g) t1 t2 ht hch'.2

theorem queryScanGo_nonneg {rest : List Sample} {cur : Sample} {acc t : ℤ}
    (h : ∀ s ∈ cur :: rest, 0 ≤ s.value) : 0 ≤ queryScanGo t acc cur rest := by
  obtain ⟨s, hs, hv⟩ := queryScanGo_mem rest cur acc t
  rw [hv]
  exact h s hs

/-! ### The query value: success, stability and monotonicity -/

theorem round_mono_rat {x y : ℚ} (h : x ≤ y) : round x ≤ round y := by
  rw [round_eq, round_eq]
  exact Int.floor_le_floor (by linarith)

theorem queryQ_eq {q : QuantileSummaries} (h : q.WF) (p : ℚ) :
    q.queryQ p = .ok (q.compressIfNeeded, q.qvalD p) := by
  obtain ⟨hch, hne⟩ := compressIfNeeded_props h
  rw [QuantileSummaries.queryQ, QuantileSummaries.qvalD]
  rw [if_neg (by rw [compressIfNeeded_count]; exact h.2.1)]
  cases hs : q.compressIfNeeded.sampled with
  | nil => exact absurd hs hne
  | cons first rest => rfl

theorem qvalD_compressIfNeeded (q : QuantileSummaries) (p : ℚ) :
    q.compressIfNeeded.qvalD p = q.qvalD p := by
  rw [QuantileSummaries.qvalD, QuantileSummaries.qvalD, compressIfNeeded_idem]

theorem qvalD_mono {q : QuantileSummaries} (h : q.WF) {p1 p2 : ℚ} (hp : p1 ≤ p2) :
    q.qvalD p1 ≤ q.qvalD p2 := by
  obtain ⟨hch, hne⟩ := compressIfNeeded_props h
  rw [QuantileSummaries.qvalD, QuantileSummaries.qvalD]
  cases hs : q.compressIfNeeded.sampled with
  | nil => exact le_rfl
  | cons first rest =>
    have hcount : (0 : ℚ) ≤ (q.compressIfNeeded.count : ℚ) := by positivity
    refine queryScanGo_mono rest first 0 _ _ ?_ (by rw [← hs]; exact hch)
    have : round (p1 * (q.compressIfNeeded.count : ℚ)) ≤
        round (p2 * (q.compressIfNeeded.count : ℚ)) :=
      round_mono_rat (by nlinarith)
    omega

theorem qvalD_nonneg {q : QuantileSummaries} (hwf : q.WF) (hnn : q.NonNeg) (p : ℚ) :
    0 ≤ q.qvalD p := by
  rw [QuantileSummaries.qvalD]
  cases hs : q.compressIfNeeded.sampled with
  | nil => exact le_rfl
  | cons first rest =>
    refine queryScanGo_nonneg ?_
    rw [← hs]
    exact compressIfNeeded_nonneg hnn

theorem norm_WF {s : MSummary} (h : s.WF) : s.norm.WF := by
  cases s with
  | dense q => exact compressIfNeeded_WF h
  | sparse sp =>
    obtain ⟨hwf, hnn, ht⟩ := h
    refine ⟨compressIfNeeded_WF hwf, ?_, ht⟩
    exact ⟨compressIfNeeded_nonneg hnn, by rw [compressIfNeeded_head_list]; simp⟩

theorem msummary_norm_norm (s : MSummary) : s.norm.norm = s.norm := by
  cases s with
  | dense q => simp [MSummary.norm, compressIfNeeded_idem]
  | sparse sp => simp [MSummary.norm, compressIfNeeded_idem]

theorem qval_norm (s : MSummary) (p : ℚ) : s.norm.qval p = s.qval p := by
  cases s with
  | dense q => simp [MSummary.norm, MSummary.qval, qvalD_compressIfNeeded]
  | sparse sp =>
    simp only [MSummary.norm, MSummary.qval, compressIfNeeded_count, qvalD_compressIfNeeded]

theorem queryVal_norm {s : MSummary} (h : s.WF) (p : ℚ) :
    ∃ s', s.queryVal p = .ok (s', s.qval p) ∧ (s' = s ∨ s' = s.norm) := by
  cases s with
  | dense q =>
    refine ⟨.dense q.compressIfNeeded, ?_, Or.inr rfl⟩
    rw [MSummary.queryVal, queryQ_eq h p]
    rfl
  | sparse sp =>
    obtain ⟨hwf, hnn, ht0⟩ := h
    cases ht : sp.total_count with
    | none => exact absurd ht ht0
    | some T =>
      by_cases hr : round (p * (T : ℚ)) ≤ (T : ℤ) - (sp.explicit_count : ℤ)
      · refine ⟨.sparse sp, ?_, Or.inl rfl⟩
        rw [MSummary.queryVal, SparseQuantileSummaries.queryS]
        simp only [ht, if_pos hr]
        rw [MSummary.qval]
        simp only [ht, if_pos hr]
      · refine ⟨.sparse { sp with summaries := sp.summaries.compressIfNeeded }, ?_, Or.inr rfl⟩
        rw [MSummary.queryVal, SparseQuantileSummaries.queryS]
        simp only [ht, if_neg hr, if_neg hwf.2.1]
        rw [queryQ_eq hwf]
        rw [MSummary.qval]
        simp only [ht, if_neg hr]

theorem qval_sparse_some {sp : SparseQuantileSummaries} {T : ℕ}
    (ht : sp.total_count = some T) (p : ℚ) :
    (MSummary.sparse sp).qval p =
      if round (p * (T : ℚ)) ≤ (T : ℤ) - (sp.explicit_count : ℤ) then 0
      else sp.summaries.qvalD
        (((round (p * (T : ℚ)) - ((T : ℤ) - (sp.explicit_count : ℤ)) : ℤ) : ℚ) /
          (sp.summaries.count : ℚ)) := by
  rw [MSummary.qval, ht]

theorem qval_mono {s : MSummary} (h : s.WF) {p1 p2 : ℚ} (hp : p1 ≤ p2) :
    s.qval p1 ≤ s.qval p2 := by
  cases s with
  | dense q => exact qvalD_mono h hp
  | sparse sp =>
    obtain ⟨hwf, hnn, ht0⟩ := h
    cases ht : sp.total_count with
    | none => exact absurd ht ht0
    | some T =>
      rw [qval_sparse_some ht p1, qval_sparse_some ht p2]
      have hT : (0 : ℚ) ≤ (T : ℚ) := by positivity
      have hrmono : round (p1 * (T : ℚ)) ≤ round (p2 * (T : ℚ)) :=
        round_mono_rat (by nlinarith)
      by_cases hr2 : round (p2 * (T : ℚ)) ≤ (T : ℤ) - (sp.explicit_count : ℤ)
      · rw [if_pos (le_trans hrmono hr2), if_pos hr2]
      · rw [if_neg hr2]
        by_cases hr1 : round (p1 * (T : ℚ)) ≤ (T : ℤ) - (sp.explicit_count : ℤ)
        · rw [if_pos hr1]
          exact qvalD_nonneg hwf hnn _
        · rw [if_neg hr1]
          refine qvalD_mono hwf ?_
          have hc : (0 : ℚ) < (sp.summaries.count : ℚ) := by
            have := hwf.2.1
            positivity
          gcongr

/-! ### Deduplication: the membership fold versus the adjacent-skip rule -/

theorem memfold_adjDedup :
    ∀ (l : List ℚ) (sp : List ℚ) (lastAp : ℚ),
      List.Chain' (· ≤ ·) (lastAp :: l) →
      List.Sorted (· < ·) sp →
      (∀ x ∈ sp, x ≤ lastAp) →
      lastAp ∈ sp →
      l.foldl (fun sp v => if v ∈ sp then sp else sp ++ [v]) sp =
        sp ++ adjDedupGo lastAp l ∧
      List.Sorted (· < ·) (sp ++ adjDedupGo lastAp l) := by
  intro l
  induction l with
  | nil =>
    intro sp lastAp _ hsorted _ _
    refine ⟨by simp [adjDedupGo], ?_⟩
    simpa [adjDedupGo] using hsorted
  | cons v vs ih =>
    intro sp lastAp hchain hsorted hub hmem
    rw [List.chain'_cons] at hchain
    rw [List.foldl_cons, adjDedupGo]
    by_cases hv : v = lastAp
    · rw [if_pos hv, if_pos (hv ▸ hmem)]
      have hch' : List.Chain' (· ≤ ·) (lastAp :: vs) := by
        rw [List.chain'_cons'] at hchain ⊢
        refine ⟨?_, hchain.2.2⟩
        intro z hz
        exact le_of_eq (hv.symm) |>.trans (hchain.2.1 z hz)
      exact ih sp lastAp hch' hsorted hub hmem
    · have hlt : lastAp < v := lt_of_le_of_ne hchain.1 (fun he => hv he.symm)
      have hnotin : v ∉ sp := fun hin => absurd (hub v hin) (not_le.2 hlt)
      rw [if_neg hv, if_neg hnotin]
      have hsorted' : List.Sorted (· < ·) (sp ++ [v]) := by
        rw [List.Sorted, List.pairwise_append]
        refine ⟨hsorted, List.pairwise_singleton _ _, ?_⟩
        intro a ha b hb
        rw [List.mem_singleton] at hb
        rw [hb]
        exact lt_of_le_of_lt (hub a ha) hlt
      have hub' : ∀ x ∈ sp ++ [v], x ≤ v := by
        intro x hx
        rcases List.mem_append.1 hx with hx | hx
        · exact le_trans (hub x hx) (le_of_lt hlt)
        · rw [List.mem_singleton] at hx
          rw [hx]
      obtain ⟨hfold, hsort⟩ := ih (sp ++ [v]) v hchain.2 hsorted' hub' (by simp)
      rw [hfold]
      constructor
      · simp
      · simpa using hsort

theorem memfold_adjDedup_top {l : List ℚ} (h : List.Chain' (· ≤ ·) l) :
    l.foldl (fun sp v => if v ∈ sp then sp else sp ++ [v]) [] = adjDedup l ∧
    List.Sorted (· < ·) (adjDedup l) := by
  cases l with
  | nil => exact ⟨rfl, List.sorted_nil⟩
  | cons v vs =>
    rw [List.foldl_cons]
    rw [if_neg (by simp)]
    have := memfold_adjDedup vs [v] v h (List.sorted_singleton v)
      (by intro x hx; rw [List.mem_singleton] at hx; rw [hx]) (by simp)
    rw [adjDedup]
    simpa using this

/-! ### The split-point loop over a well-formed summary -/

theorem splitLoop_fold_spec :
    ∀ (percs : List ℚ) (s0 s : MSummary), (s = s0 ∨ s = s0.norm) → s0.WF →
      ∀ (sp0 : List ℚ),
      ∃ s', (percs.foldlM (fun (acc : MSummary × List ℚ) p => do
          let (s', v) ← acc.1.queryVal p
          pure (s', if v ∈ acc.2 then acc.2 else acc.2 ++ [v])) (s, sp0)) =
        .ok (s', percs.foldl (fun sp p =>
          if s0.qval p ∈ sp then sp else sp ++ [s0.qval p]) sp0) ∧
      (s' = s0 ∨ s' = s0.norm) := by
  intro percs
  induction percs with
  | nil =>
    intro s0 s hn hwf sp0
    exact ⟨s, by simp [List.foldlM_nil, pure, Except.pure], hn⟩
  | cons p percs ih =>
    intro s0 s hn hwf sp0
    have hswf : s.WF := by
      rcases hn with rfl | rfl
      · exact hwf
      · exact norm_WF hwf
    obtain ⟨s1, hq, hn1⟩ := queryVal_norm hswf p
    have hval : s.qval p = s0.qval p := by
      rcases hn with rfl | rfl
      · rfl
      · exact qval_norm s0 p
    have hn1' : s1 = s0 ∨ s1 = s0.norm := by
      rcases hn1 with rfl | rfl
      · exact hn
      · rcases hn with rfl | rfl
        · exact Or.inr rfl
        · rw [msummary_norm_norm]
          exact Or.inr rfl
    rw [List.foldlM_cons, hq, except_ok_bind]
    obtain ⟨s', hfold, hn'⟩ := ih s0 s1 hn1' hwf
      (if s.qval p ∈ sp0 then sp0 else sp0 ++ [s.qval p])
    refine ⟨s', ?_, hn'⟩
    rw [List.foldl_cons, ← hval]
    exact hfold

/-! ### The percentile probabilities are ascending -/

theorem chain_le_map_range' (pv : ℚ) (hpv : 0 ≤ pv) :
    ∀ (n s : ℕ), List.Chain' (· ≤ ·) ((List.range' s n).map (fun i : ℕ => (i : ℚ) * pv)) := by
  intro n
  induction n with
  | zero => intro s; simp
  | succ n ih =>
    intro s
    rw [List.range'_succ]
    rw [List.map_cons, List.chain'_cons']
    refine ⟨?_, ih (s + 1)⟩
    intro z hz
    cases n with
    | zero => simp at hz
    | succ m =>
      rw [List.range'_succ] at hz
      simp only [List.map_cons, List.head?_cons, Option.mem_def, Option.some.injEq] at hz
      rw [← hz]
      have : (s : ℚ) ≤ ((s + 1 : ℕ) : ℚ) := by
        push_cast
        linarith
      exact mul_le_mul_of_nonneg_right this hpv

theorem percentileRate_chain (bn : ℤ) : List.Chain' (· ≤ ·) (percentileRate bn) := by
  rw [percentileRate]
  by_cases hbn : 2 ≤ bn
  · refine chain_le_map_range' _ ?_ _ _
    have : (0 : ℚ) < (bn : ℚ) := by
      exact_mod_cast lt_of_lt_of_le (by norm_num) hbn
    positivity
  · have h0 : (bn - 1).toNat = 0 := by omega
    rw [h0]
    simp

/-! ### Claim C4: the split-point loop deduplicates exactly by the
previous appended value and yields strictly increasing sequences -/

theorem fitLoop_spec (percs : List ℚ) :
    ∀ (sd : List (String × MSummary)), (∀ cs ∈ sd, cs.2.WF) →
      ∀ (e0 : List (String × MSummary)) (sp0 : List (String × List ℚ)),
      ∃ entries, (sd.foldlM (fun (acc : List (String × MSummary) × List (String × List ℚ))
          (cs : String × MSummary) => do
          let (s', sp) ← splitLoop percs cs.2
          pure (acc.1 ++ [(cs.1, s')], acc.2 ++ [(cs.1, sp)])) (e0, sp0)) =
        .ok (entries, sp0 ++ sd.map (fun cs =>
          (cs.1, percs.foldl (fun sp p =>
            if cs.2.qval p ∈ sp then sp else sp ++ [cs.2.qval p]) []))) := by
  intro sd
  induction sd with
  | nil =>
    intro _ e0 sp0
    exact ⟨e0, by simp [List.foldlM_nil, pure, Except.pure]⟩
  | cons cs sd ih =>
    intro hwf e0 sp0
    obtain ⟨s', hsl, _⟩ := splitLoop_fold_spec percs cs.2 cs.2 (Or.inl rfl)
      (hwf cs (by simp)) []
    rw [List.foldlM_cons, show splitLoop percs cs.2 = percs.foldlM
      (fun (acc : MSummary × List ℚ) p => do
        let (s', v) ← acc.1.queryVal p
        pure (s', if v ∈ acc.2 then acc.2 else acc.2 ++ [v])) (cs.2, []) from rfl, hsl,
      except_ok_bind]
    obtain ⟨entries, hrest⟩ := ih (fun c hc => hwf c (by simp [hc]))
      (e0 ++ [(cs.1, s')])
      (sp0 ++ [(cs.1, percs.foldl (fun sp p =>
        if cs.2.qval p ∈ sp then sp else sp ++ [cs.2.qval p]) [])])
    refine ⟨entries, ?_⟩
    exact hrest.trans (by simp)

/-- C4: over a populated cache of well-formed summaries,
`fit_split_points` returns, for every column in order, exactly the queried
values of the ascending probabilities `i / bin_num` deduplicated by
comparison with the immediately preceding appended value (`adjDedup`), and
each returned sequence is strictly increasing (hence no two adjacent
entries are equal). -/
theorem fit_split_points_dedup (st : BinState) (data : DataInstances)
    (sd : List (String × MSummary)) (hsd : st.summary_dict = some sd)
    (hwf : ∀ cs ∈ sd, cs.2.WF) (hbn : st.bin_num ≠ 0) :
    ∃ st' b, fit_split_points st data =
      .ok (st', sd.map (fun cs =>
        (cs.1, adjDedup ((percentileRate st.bin_num).map cs.2.qval))), b) ∧
      ∀ cs ∈ sd, List.Sorted (· < ·)
        (adjDedup ((percentileRate st.bin_num).map cs.2.qval)) := by
  have hchain : ∀ cs ∈ sd,
      List.Chain' (· ≤ ·) ((percentileRate st.bin_num).map cs.2.qval) := by
    intro cs hcs
    rw [List.chain'_map]
    refine List.Chain'.imp ?_ (percentileRate_chain st.bin_num)
    intro a b hab
    exact qval_mono (hwf cs hcs) hab
  have hded : ∀ cs ∈ sd,
      (percentileRate st.bin_num).foldl (fun sp p =>
        if cs.2.qval p ∈ sp then sp else sp ++ [cs.2.qval p]) [] =
        adjDedup ((percentileRate st.bin_num).map cs.2.qval) := by
    intro cs hcs
    have h := (memfold_adjDedup_top (hchain cs hcs)).1
    rw [List.foldl_map] at h
    exact h
  have hsort : ∀ cs ∈ sd, List.Sorted (· < ·)
      (adjDedup ((percentileRate st.bin_num).map cs.2.qval)) := by
    intro cs hcs
    exact (memfold_adjDedup_top (hchain cs hcs)).2
  obtain ⟨entries, hloop⟩ := fitLoop_spec (percentileRate st.bin_num) sd hwf [] []
  have hmapeq : sd.map (fun cs => (cs.1, (percentileRate st.bin_num).foldl (fun sp p =>
      if cs.2.qval p ∈ sp then sp else sp ++ [cs.2.qval p]) [])) =
      sd.map (fun cs => (cs.1, adjDedup ((percentileRate st.bin_num).map cs.2.qval))) :=
    List.map_congr_left (fun cs hcs => by rw [hded cs hcs])
  refine ⟨{ st with
             summary_dict := some entries
             split_points := some (sd.map (fun cs =>
               (cs.1, adjDedup ((percentileRate st.bin_num).map cs.2.qval)))) },
          false, ?_, hsort⟩
  rw [fit_split_points_cached_eq st data sd hbn hsd, hloop]
  simp only [Except.bind, List.nil_append]
  rw [hmapeq]

/-! ### Claim C3: the three accepted shapes of query_points -/

theorem normOf_step {s0 t t' : MSummary} (hn : normOf s0 t)
    (h : t' = t ∨ t' = t.norm) : normOf s0 t' := by
  cases hn with
  | inl he => rw [he] at h; exact h
  | inr he =>
    rw [he, msummary_norm_norm] at h
    exact Or.inr (h.elim id id)

theorem normOf_WF {s0 t : MSummary} (hwf : s0.WF) (hn : normOf s0 t) : t.WF := by
  cases hn with
  | inl he => rw [he]; exact hwf
  | inr he => rw [he]; exact norm_WF hwf

theorem normOf_qval {s0 t : MSummary} (hn : normOf s0 t) (p : ℚ) :
    t.qval p = s0.qval p := by
  cases hn with
  | inl he => rw [he]
  | inr he => rw [he, qval_norm]

theorem updEntry_not_mem {α : Type} (c : String) (v : α) :
    ∀ {d : List (String × α)}, c ∉ d.map Prod.fst → updEntry d c v = d := by
  intro d
  induction d with
  | nil => intro _; rfl
  | cons a d' ih =>
    intro h
    simp only [List.map_cons, List.mem_cons, not_or] at h
    simp only [updEntry, List.map_cons]
    rw [if_neg (fun he : a.1 = c => h.1 he.symm)]
    exact congrArg (List.cons a) (ih h.2)

theorem dictNormOf_refl (sd : List (String × MSummary)) : dictNormOf sd sd :=
  List.forall₂_same.2 (fun _ _ => ⟨rfl, Or.inl rfl⟩)

theorem dictNormOf_updEntry :
    ∀ {sd sdc : List (String × MSummary)},
      dictNormOf sd sdc →
      (sd.map Prod.fst).Nodup →
      ∀ {c : String} {s0 t' : MSummary}, dictGet sd c = some s0 → normOf s0 t' →
      dictNormOf sd (updEntry sdc c t') := by
  intro sd sdc h
  induction h with
  | nil =>
    intro _ c s0 t' hget _
    simp [dictGet] at hget
  | @cons a b sd' sdc' hab htail ih =>
    intro hnd c s0 t' hget hn
    simp only [List.map_cons, List.nodup_cons] at hnd
    simp only [dictNormOf, updEntry, List.map_cons]
    by_cases hc : b.1 = c
    · rw [if_pos hc]
      have ha1 : a.1 = c := hab.1.trans hc
      simp only [dictGet] at hget
      rw [if_pos ha1] at hget
      refine List.Forall₂.cons ⟨hab.1, ?_⟩ ?_
      · rw [← Option.some.inj hget] at hn
        exact hn
      · have hkeys : sdc'.map Prod.fst = sd'.map Prod.fst := forall2_fst_eq htail
        have hcnot : c ∉ sdc'.map Prod.fst := by
          rw [hkeys]
          exact ha1 ▸ hnd.1
        rw [show (sdc'.map fun cv => if cv.1 = c then (cv.1, t') else cv) = sdc' from
          updEntry_not_mem c t' hcnot]
        exact htail
    · rw [if_neg hc]
      have ha1 : ¬ a.1 = c := fun he => hc (hab.1.symm.trans he)
      simp only [dictGet] at hget
      rw [if_neg ha1] at hget
      exact List.Forall₂.cons hab (ih hnd.2 hget hn)

theorem queryLoop_spec :
    ∀ (qd : List (String × ℚ)) (sd : List (String × MSummary)),
      (sd.map Prod.fst).Nodup →
      (∀ cs ∈ sd, cs.2.WF) →
      (∀ cq ∈ qd, ∃ s, dictGet sd cq.1 = some s) →
      ∀ (sdc : List (String × MSummary)), dictNormOf sd sdc →
      ∀ (acc : List (String × ℚ)),
      ∃ sd', (qd.foldlM (fun (acc : Option (List (String × MSummary)) × List (String × ℚ))
          (cq : String × ℚ) =>
        (do
          match acc.1 with
          | none => Except.error PyErr.typeError
          | some sd =>
            match dictGet sd cq.1 with
            | none => Except.error PyErr.keyError
            | some s => do
              let (s', v) ← s.queryVal cq.2
              pure (some (updEntry sd cq.1 s'), acc.2 ++ [(cq.1, v)]) :
          Except PyErr (Option (List (String × MSummary)) × List (String × ℚ)))) (some sdc, acc)) =
        .ok (some sd', acc ++ qd.map (fun cq => (cq.1, qvalAt sd cq.1 cq.2))) ∧
      dictNormOf sd sd' := by
  intro qd
  induction qd with
  | nil =>
    intro sd _ _ _ sdc hn acc
    exact ⟨sdc, by simp [List.foldlM_nil, pure, Except.pure], hn⟩
  | cons cq qd ih =>
    intro sd hnd hwf hcov sdc hn acc
    obtain ⟨s0, hget⟩ := hcov cq (by simp)
    obtain ⟨t, hgetc, hnt⟩ := (dictGet_forall2 hn cq.1).2 s0 hget
    have hs0wf : s0.WF := hwf _ (dictGet_mem hget)
    have htwf : t.WF := normOf_WF hs0wf hnt
    obtain ⟨t', hqv, ht'⟩ := queryVal_norm htwf cq.2
    have hval : t.qval cq.2 = qvalAt sd cq.1 cq.2 := by
      rw [normOf_qval hnt, qvalAt, hget]
      rfl
    have hnt' : normOf s0 t' := normOf_step hnt ht'
    have hupd : dictNormOf sd (updEntry sdc cq.1 t') := dictNormOf_updEntry hn hnd hget hnt'
    obtain ⟨sd', hrest, hn'⟩ := ih sd hnd hwf (fun c hc => hcov c (by simp [hc]))
      (updEntry sdc cq.1 t') hupd (acc ++ [(cq.1, qvalAt sd cq.1 cq.2)])
    refine ⟨sd', ?_, hn'⟩
    rw [List.foldlM_cons]
    simp only [hgetc, hqv, pure, Except.pure, except_ok_bind]
    rw [hval]
    exact hrest.trans (by simp)

/-- C3: after the build-and-store prefix over a populated cache of
well-formed summaries, a numeric `query_points` is fanned out to every
requested column at that same probability, a per-column dict queries each
listed column at its own probability, and any other shape fails with the
wrong-type error (Python `ValueError`, the specification's
`InvalidArgumentError`). -/
theorem query_quantile_point_forms (st : BinState) (data : DataInstances)
    (cols : List String) (sd : List (String × MSummary))
    (hsd : st.summary_dict = some sd) (hnd : (sd.map Prod.fst).Nodup)
    (hwf : ∀ cs ∈ sd, cs.2.WF) :
    ((∀ c ∈ cols, ∃ s, dictGet sd c = some s) → ∀ q : ℚ,
      ∃ st' b, query_quantile_point st data cols (.num q) =
        .ok (st', cols.map (fun c => (c, qvalAt sd c q)), b)) ∧
    (∀ m : List (String × ℚ), (∀ cq ∈ m, ∃ s, dictGet sd cq.1 = some s) →
      ∃ st' b, query_quantile_point st data cols (.dict m) =
        .ok (st', m.map (fun cq => (cq.1, qvalAt sd cq.1 cq.2)), b)) ∧
    query_quantile_point st data cols (.other) = .error .valueError := by
  refine ⟨?_, ?_, ?_⟩
  · intro hcov q
    obtain ⟨sd', hloop, _⟩ := queryLoop_spec (cols.map (fun c => (c, q))) sd hnd hwf
      (fun cq hcq => by
        obtain ⟨c, hc, rfl⟩ := List.mem_map.1 hcq
        exact hcov c hc) sd (dictNormOf_refl sd) []
    refine ⟨{ st with summary_dict := some sd' }, false, ?_⟩
    rw [query_quantile_point_eq, queryBuildPhase_cached_eq st data sd hsd]
    simp only [Except.bind]
    rw [hloop]
    simp [Except.bind, List.map_map, Function.comp]
  · intro m hcov
    obtain ⟨sd', hloop, _⟩ := queryLoop_spec m sd hnd hwf hcov sd (dictNormOf_refl sd) []
    refine ⟨{ st with summary_dict := some sd' }, false, ?_⟩
    rw [query_quantile_point_eq, queryBuildPhase_cached_eq st data sd hsd]
    simp only [Except.bind]
    rw [hloop]
    simp [Except.bind]
  · rw [query_quantile_point_eq, queryBuildPhase_cached_eq st data sd hsd]
    rfl

/-! ### Witness evaluation setup

Concrete witness runs are evaluated with `decide`.  The `Rat` arithmetic
operations of Batteries are marked irreducible, which blocks the
elaborator-side evaluation (the kernel itself reduces them fine), so they
are made reducible for the remainder of this file. -/

set_option allowUnsafeReducibility true

attribute [local reducible] Rat.add Rat.mul Rat.inv Rat.div Rat.sub Rat.neg

/-- C5 witness: a populated cache makes a concrete `fit_split_points` call
report no rebuild (the ghost flag of the evaluated run is `false`, as the
theorem forces). -/
theorem summary_cache_reuse_witness :
    fixStCached.summary_dict = some fixDict ∧
    fit_split_points fixStCached fixData =
      .ok ({ fixStCached with split_points := some [("x", [1, 2, 3])] },
        [("x", [1, 2, 3])], false) ∧
    false = false :=
  ⟨rfl, by decide,
   ((summary_cache_reuse fixStCached fixData).1 fixDict rfl).1
     { fixStCached with split_points := some [("x", [1, 2, 3])] }
     [("x", [1, 2, 3])] false (by decide)⟩

/-- The fixture dict holds only well-formed summaries (checked
explicitly, since `Chain'` has no evaluable Decidable instance). -/
theorem fixDict_WF : ∀ cs ∈ fixDict, cs.2.WF := by
  intro cs hcs
  simp only [fixDict, List.mem_singleton] at hcs
  subst hcs
  exact ⟨List.Chain'.cons (by decide) (List.Chain'.cons (by decide)
    (List.Chain'.cons (by decide) (List.chain'_singleton _))),
    by decide, Or.inl (List.cons_ne_nil _ _)⟩

/-- C3 witness: on the cached fixture, a numeric `query_points` of 1/2
answers every requested column, the dict form answers the listed column at
its own probability, and the ill-typed form raises the `ValueError`. -/
theorem query_quantile_point_forms_witness :
    (fixStCached.summary_dict = some fixDict ∧ (fixDict.map Prod.fst).Nodup ∧
     (∀ cs ∈ fixDict, cs.2.WF) ∧ (∀ c ∈ ["x"], ∃ s, dictGet fixDict c = some s) ∧
     (∀ cq ∈ [("x", (3 : ℚ)/4)], ∃ s, dictGet fixDict cq.1 = some s)) ∧
    (∃ st' b, query_quantile_point fixStCached fixData ["x"] (.num (1/2)) =
      .ok (st', ["x"].map (fun c => (c, qvalAt fixDict c (1/2))), b)) ∧
    (∃ st' b, query_quantile_point fixStCached fixData ["x"] (.dict [("x", 3/4)]) =
      .ok (st', [("x", (3 : ℚ)/4)].map (fun cq => (cq.1, qvalAt fixDict cq.1 cq.2)), b)) ∧
    query_quantile_point fixStCached fixData ["x"] .other = .error .valueError :=
  ⟨⟨rfl, by decide, fixDict_WF,
    fun c hc => by
      simp only [List.mem_singleton] at hc
      subst hc
      exact ⟨.dense fixQ4, rfl⟩,
    fun cq hcq => by
      simp only [List.mem_singleton] at hcq
      subst hcq
      exact ⟨.dense fixQ4, rfl⟩⟩,
   (query_quantile_point_forms fixStCached fixData ["x"] fixDict rfl (by decide) fixDict_WF).1
     (fun c hc => by
       simp only [List.mem_singleton] at hc
       subst hc
       exact ⟨.dense fixQ4, rfl⟩) (1/2),
   (query_quantile_point_forms fixStCached fixData ["x"] fixDict rfl (by decide) fixDict_WF).2.1
     [("x", 3/4)]
     (fun cq hcq => by
       simp only [List.mem_singleton] at hcq
       subst hcq
       exact ⟨.dense fixQ4, rfl⟩),
   (query_quantile_point_forms fixStCached fixData ["x"] fixDict rfl (by decide)
     fixDict_WF).2.2⟩

/-- C4 witness: on the cached four-value sketch with `bin_num = 4`, the
hypotheses hold concretely and `fit_split_points` returns the adjacently
deduplicated quantile values, strictly increasing. -/
theorem fit_split_points_dedup_witness :
    (fixStCached.summary_dict = some fixDict ∧
     (∀ cs ∈ fixDict, cs.2.WF) ∧ fixStCached.bin_num ≠ 0) ∧
    (∃ st' b, fit_split_points fixStCached fixData =
      .ok (st', fixDict.map (fun cs =>
        (cs.1, adjDedup ((percentileRate fixStCached.bin_num).map cs.2.qval))), b) ∧
      ∀ cs ∈ fixDict, List.Sorted (· < ·)
        (adjDedup ((percentileRate fixStCached.bin_num).map cs.2.qval))) :=
  ⟨⟨rfl, fixDict_WF, by decide⟩,
   fit_split_points_dedup fixStCached fixData fixDict rfl fixDict_WF (by decide)⟩

/-- C7 counterexample: a configuration with `bin_num = 1 < 2` on which
`fit_split_points` succeeds (returning an empty split-point list), raising
no error at all. -/
theorem fit_split_points_bin1_no_error :
    fixStBin1.bin_num = 1 ∧
    fit_split_points fixStBin1 fixData =
      .ok ({ fixStBin1 with
              summary_dict := some fixDict
              split_points := some [("x", [])] }, [("x", [])], false) := by
  constructor
  · rfl
  · rfl

/-- C7 (amended): `fit_split_points` performs no `bin_num` validation:
with `bin_num = 0` it fails with a `ZeroDivisionError` (from
`1.0 / bin_num`), and with any other `bin_num < 2` and a populated cache
it succeeds, producing an empty split-point sequence for every column. -/
theorem fit_split_points_no_bin_num_check (st : BinState) (data : DataInstances) :
    (st.bin_num = 0 → fit_split_points st data = .error .zeroDivisionError) ∧
    (∀ d, st.summary_dict = some d → st.bin_num < 2 → st.bin_num ≠ 0 →
      fit_split_points st data =
        .ok ({ st with
                summary_dict := some d
                split_points := some (d.map (fun cs => (cs.1, ([] : List ℚ)))) },
             d.map (fun cs => (cs.1, ([] : List ℚ))), false)) := by
  constructor
  · intro h
    rw [fit_split_points, if_pos h]
  · intro d hd hlt hne
    have hpr : percentileRate st.bin_num = [] := by
      unfold percentileRate
      have h0 : (st.bin_num - 1).toNat = 0 := by omega
      rw [h0]
      rfl
    rw [fit_split_points_cached_eq st data d hne hd, hpr, fitLoop_nil_percs]
    simp [Except.bind]

/-- C7 witness for the amended claim: `bin_num = 0` gives the division
error; `bin_num = 1` with a cached dict succeeds with empty lists. -/
theorem fit_split_points_no_bin_num_check_witness :
    (fixStBin0.bin_num = 0 ∧
      fit_split_points fixStBin0 fixData = .error .zeroDivisionError) ∧
    (fixStBin1.summary_dict = some fixDict ∧ fixStBin1.bin_num < 2 ∧ fixStBin1.bin_num ≠ 0 ∧
      fit_split_points fixStBin1 fixData =
        .ok ({ fixStBin1 with
                summary_dict := some fixDict
                split_points := some (fixDict.map (fun cs => (cs.1, ([] : List ℚ)))) },
             fixDict.map (fun cs => (cs.1, ([] : List ℚ))), false)) :=
  ⟨⟨rfl, (fit_split_points_no_bin_num_check fixStBin0 fixData).1 rfl⟩,
   ⟨rfl, by decide, by decide,
    (fit_split_points_no_bin_num_check fixStBin1 fixData).2 fixDict rfl (by decide) (by decide)⟩⟩

/-- C8 witness: a concrete merge where the second dict misses the column
"b" and adds a column "c": the result keys are exactly those of the first
dict. -/
theorem merge_summary_dict_keys_first_witness :
    (∃ r, merge_summary_dict fixMergeNat (some [("a", 1), ("b", 2)])
        (some [("a", 10), ("c", 30)]) = .ok (some r) ∧
      r.map Prod.fst = ["a", "b"] ∧ dictGet r "b" = some 2) := by
  refine ⟨[("a", 11), ("b", 2)], by decide, ?_, by decide⟩
  have h := ((merge_summary_dict_keys_first fixMergeNat [("a", 1), ("b", 2)]
    [("a", 10), ("c", 30)]).1 [("a", 11), ("b", 2)] (by decide)).1
  exact h

/-- C9 witness: a two-cell store; the object at address 0 (bound by the
first dict) is overwritten with the merge result, the result dict is the
first dict itself, and the address taken from the second dict is read, not
written. -/
theorem merge_summary_dict_heap_in_place_witness :
    (([("a", (0:ℕ))].map Prod.snd).Nodup ∧
     (∀ cs ∈ [("a", (0:ℕ))], cs.2 < ([10, 20] : List ℕ).length) ∧
     (∀ cs ∈ [("a", (1:ℕ)), ("b", 1)], cs.2 ∉ [("a", (0:ℕ))].map Prod.snd)) ∧
    (merge_summary_dict_heap fixMergeNatTotal [10, 20] [("a", 0)] [("a", 1), ("b", 1)]).2
      = [("a", 0)] ∧
    (merge_summary_dict_heap fixMergeNatTotal [10, 20] [("a", 0)] [("a", 1), ("b", 1)]).1.get? 0
      = some 30 ∧
    (merge_summary_dict_heap fixMergeNatTotal [10, 20] [("a", 0)] [("a", 1), ("b", 1)]).1.get? 1
      = some 20 := by
  have h := merge_summary_dict_heap_in_place fixMergeNatTotal [10, 20]
    [("a", 0)] [("a", 1), ("b", 1)] (by decide) (by decide) (by decide)
  refine ⟨⟨by decide, by decide, by decide⟩, h.1, ?_, ?_⟩
  · have h2 := h.2.1 ("a", 0) (by decide)
    exact h2.trans (by decide)
  · have h2 := h.2.2 1 (by decide)
    exact h2.trans (by decide)

/-- C6 witness: the sparse fixture run assigns `total_count = 3` exactly
once to the single column summary, in the build, and it still holds on the
cached state. -/
theorem fit_sparse_sets_total_once_witness :
    (fixStEmpty.summary_dict = none ∧ fixDataSparse.sparse = true ∧
      fit_split_points fixStEmpty fixDataSparse =
        .ok (fixStSparseDone, [("x", [0, 5])], true)) ∧
    (∃ sd, buildSummaryDict fixStEmpty fixDataSparse true = .ok sd ∧
      (∀ cs ∈ sd, cs.2.setCalls = 1 ∧ cs.2.totalCount = some fixDataSparse.count) ∧
      ∃ entries, fixStSparseDone.summary_dict = some entries ∧
        ∀ cs ∈ entries, cs.2.setCalls = 1 ∧ cs.2.totalCount = some fixDataSparse.count) :=
  ⟨⟨rfl, rfl, by decide⟩,
   fit_sparse_sets_total_once fixStEmpty fixDataSparse fixStSparseDone
     [("x", [0, 5])] true rfl rfl (by decide)⟩

/-- C10 witness: a concrete `query_quantile_point` call on sparse data
with an empty cache stores the summaries with `total_count` unassigned and
the ghost `set_total_count` call count 0. -/
theorem query_never_sets_total_witness :
    (fixStEmpty.summary_dict = none ∧
      query_quantile_point fixStEmpty fixDataSparse ["x"] (.dict []) =
        .ok ({ fixStEmpty with summary_dict := some [("x", fixSparseUnset)] },
          [], true)) ∧
    (∀ cs ∈ [("x", fixSparseUnset)], cs.2.Unset) :=
  ⟨⟨rfl, by decide⟩,
   (query_never_sets_total fixStEmpty fixDataSparse rfl).2 ["x"] (.dict [])
     { fixStEmpty with summary_dict := some [("x", fixSparseUnset)] } [] true
     (by decide) [("x", fixSparseUnset)] rfl⟩
